import Mathlib

/-!
Verification of the c_minus toolchain core against its specification.

The definitions below are shallow embeddings of the Go functions in
internal/transform/transform.go, internal/codegen/codegen.go,
internal/project/project.go, internal/lsp/linemap.go and
internal/lsp/module_index.go.  Text is modelled as Lean strings over
`List Char`; all inputs of interest are ASCII, where Go's byte-wise
processing and the character-wise model coincide.  Go maps are modelled
as association lists; a lookup returns the first binding of a key.
-/

namespace CMinus

/-- The single-quote character, written numerically. -/
def squote : Char := Char.ofNat 39

/-- The opening-brace character, written numerically. -/
def lbrace : Char := Char.ofNat 123

/-- The closing-brace character, written numerically. -/
def rbrace : Char := Char.ofNat 125

/-- Whitespace class of Go's `unicode.IsSpace` restricted to ASCII. -/
def isSpaceCh (c : Char) : Bool :=
  c = ' ' || c = '\t' || c = '\n' || c = '\r' || c = '\x0b' || c = '\x0c'

/-- Split a character list at every character satisfying `p`, keeping empty
pieces, as Go's `strings.Split`-style helpers do. -/
def splitByAux (p : Char → Bool) : List Char → List Char → List String
  | [], cur => [String.mk cur.reverse]
  | c :: cs, cur =>
    if p c then String.mk cur.reverse :: splitByAux p cs []
    else splitByAux p cs (c :: cur)

/-- Go `strings.Split(s, sep)` for a one-character separator. -/
def goSplitCh (sep : Char) (s : String) : List String :=
  splitByAux (fun c => c = sep) s.data []

/-- Go `strings.Fields`: split on whitespace runs, dropping empty fields. -/
def goFields (s : String) : List String :=
  (splitByAux isSpaceCh s.data []).filter (fun x => x ≠ "")

/-- Go `strings.TrimSpace` on a character list. -/
def trimSpaceL (cs : List Char) : List Char :=
  ((cs.dropWhile isSpaceCh).reverse.dropWhile isSpaceCh).reverse

/-- Go `strings.TrimSpace`. -/
def trimSpace (s : String) : String := String.mk (trimSpaceL s.data)

/-- Go `strings.HasPrefix`. -/
def hasPrefixStr (s pre : String) : Bool :=
  decide (s.data.take pre.data.length = pre.data)

/-- Go `strings.Join(parts, sep)`. -/
def goJoin (sep : String) : List String → String
  | [] => ""
  | [s] => s
  | s :: rest => s ++ sep ++ goJoin sep rest

/-- First index where `nd` occurs in `hay`, scanning left to right;
models `indexOfSubstring` from internal/lsp/module_index.go and
Go's `strings.Index` (which agree). -/
def idxOfSub (hay nd : List Char) : Option Nat :=
  (List.range (hay.length + 1 - nd.length)).find?
    (fun i => decide ((hay.drop i).take nd.length = nd))

/-- Go `strings.Contains`. -/
def containsSub (hay nd : String) : Bool := (idxOfSub hay.data nd.data).isSome

/-- Go `strings.Replace(s, old, new, 1)`: replace the first occurrence. -/
def replaceFirst (s old new : String) : String :=
  match idxOfSub s.data old.data with
  | some i => String.mk (s.data.take i) ++ new ++ String.mk (s.data.drop (i + old.data.length))
  | none => s

/-- Go `strconv.Atoi` (ignoring overflow, which cannot occur on the
inputs of interest). -/
def goAtoi (s : String) : Option Int :=
  let core : Int × List Char :=
    match s.data with
    | '+' :: r => (1, r)
    | '-' :: r => (-1, r)
    | r => (1, r)
  if core.2 = [] then none
  else if core.2.all Char.isDigit then
    some (core.1 * (core.2.foldl (fun acc c => 10 * acc + (c.toNat - 48 : Int)) 0))
  else none

/-- Last index of character `c` in `cs`, or `none`; Go `strings.LastIndex`
for a one-character needle. -/
def lastIdxCh (cs : List Char) (c : Char) : Option Nat :=
  match cs.reverse.findIdx? (fun x => x = c) with
  | some j => some (cs.length - 1 - j)
  | none => none

/-- `SanitizeModuleName` from internal/paths/paths.go: replace `/` by `_`. -/
def SanitizeModuleName (s : String) : String :=
  String.mk (s.data.map (fun c => if c = '/' then '_' else c))

/-- `getModulePrefix` from transform.go: the last `/`-separated segment of
an import path. -/
def lastPathSeg (path : String) : String :=
  match (goSplitCh '/' path).getLast? with
  | some s => s
  | none => path

/-- Association-list stand-in for a Go `map[string]string`. -/
abbrev SMap := List (String × String)

/-- Keyed lookup in an `SMap` (Go map indexing). -/
def mfind (m : SMap) (k : String) : Option String := List.lookup k m

/-- `BuildImportMap` from transform.go: map each import path's last segment
to the full path, failing on a prefix collision. -/
def BuildImportMap (imports : List String) : Except String SMap :=
  List.foldlM
    (fun m p =>
      let pfx := lastPathSeg p
      match mfind m pfx with
      | some existing =>
        if existing ≠ p then
          Except.error ("import prefix collision: both " ++ existing ++ " and " ++ p ++
            " would use prefix " ++ pfx)
        else Except.ok m
      | none => Except.ok (m ++ [(pfx, p)]))
    [] imports

/-- `isIdentStart` from transform.go (ASCII fragment of `unicode.IsLetter`). -/
def isIdentStart (c : Char) : Bool := c.isAlpha || c = '_'

/-- `isIdentContinue` from transform.go. -/
def isIdentContinue (c : Char) : Bool := c.isAlpha || c.isDigit || c = '_'

/-- Token kinds of the body tokenizer in transform.go. -/
inductive Tok where
  | ident (s : String)
  | dot
  | other (s : String)
deriving DecidableEq, Repr

/-- Consume a string/char literal body after its opening delimiter `d`,
honouring backslash escapes, as the quote branches of `tokenize` do.
Returns the consumed characters (including the closing delimiter when
present) and the remaining input. -/
def consumeLit (d : Char) : List Char → List Char × List Char
  | [] => ([], [])
  | c :: cs =>
    if c = d then ([c], cs)
    else if c = '\\' then
      match cs with
      | [] => ([c], [])
      | c2 :: cs2 => (c :: c2 :: (consumeLit d cs2).1, (consumeLit d cs2).2)
    else (c :: (consumeLit d cs).1, (consumeLit d cs).2)

theorem consumeLit_len (d : Char) (cs : List Char) : (consumeLit d cs).2.length ≤ cs.length := by
  match cs with
  | [] => exact Nat.le_refl 0
  | c :: cs =>
    unfold consumeLit
    split
    · exact Nat.le_succ _
    · split
      · match cs with
        | [] => exact Nat.zero_le _
        | c2 :: cs2 =>
          have ih := consumeLit_len d cs2
          exact Nat.le_trans ih (by simp only [List.length_cons]; omega)
      · have ih := consumeLit_len d cs
        exact Nat.le_trans ih (Nat.le_succ _)

/-- Flush the pending buffer as one token (`flushIdent`/`flushOther` in
transform.go: the flag picks the kind; an empty buffer emits nothing). -/
def emitCur (asIdent : Bool) (cur : List Char) (acc : List Tok) : List Tok :=
  if cur.isEmpty then acc
  else acc ++ [if asIdent then Tok.ident (String.mk cur) else Tok.other (String.mk cur)]

/-- The state-machine loop of `tokenize` from transform.go.  `inId` is the
`inIdent` flag, `cur` the pending buffer, `acc` the emitted tokens. -/
def tokLoop : List Char → Bool → List Char → List Tok → List Tok
  | [], _, cur, acc => emitCur true cur acc
  | c :: cs, inId, cur, acc =>
    if c = '.' then
      tokLoop cs false [] (emitCur true cur acc ++ [Tok.dot])
    else if c = '"' then
      tokLoop (consumeLit '"' cs).2 false
        ((if inId then [] else cur) ++ '"' :: (consumeLit '"' cs).1)
        (if inId then emitCur true cur acc else acc)
    else if c = squote then
      tokLoop (consumeLit squote cs).2 false
        ((if inId then [] else cur) ++ squote :: (consumeLit squote cs).1)
        (if inId then emitCur true cur acc else acc)
    else if isIdentStart c || (inId && isIdentContinue c) then
      if inId then tokLoop cs true (cur ++ [c]) acc
      else tokLoop cs true [c] (emitCur false cur acc)
    else
      if inId then tokLoop cs false [c] (emitCur true cur acc)
      else tokLoop cs false (cur ++ [c]) acc
termination_by cs _ _ _ => cs.length
decreasing_by
  all_goals simp_wf
  all_goals exact Nat.lt_succ_of_le (consumeLit_len _ _)

/-- `tokenize` from transform.go. -/
def tokenize (body : String) : List Tok := tokLoop body.data false [] []

/-- The inner collection loop of `TransformFunctionBodyFull`: gather the
identifiers of a `Ident (Dot Ident)*` run after a recognised import
prefix, also consuming a trailing `Dot` when one follows an identifier. -/
def collectQual : List Tok → List String × List Tok
  | Tok.ident s :: rest =>
    match rest with
    | Tok.dot :: rest2 => ((s :: (collectQual rest2).1), (collectQual rest2).2)
    | _ => ([s], rest)
  | ts => ([], ts)

theorem collectQual_len (ts : List Tok) : (collectQual ts).2.length ≤ ts.length := by
  match ts with
  | Tok.ident s :: rest =>
    match rest with
    | Tok.dot :: rest2 =>
      have ih := collectQual_len rest2
      simp only [collectQual]
      exact Nat.le_trans ih (by simp only [List.length_cons]; omega)
    | [] => simp [collectQual]
    | Tok.ident s2 :: r => simp [collectQual]
    | Tok.other s2 :: r => simp [collectQual]
  | [] => simp [collectQual]
  | Tok.dot :: r => simp [collectQual]
  | Tok.other s :: r => simp [collectQual]

/-- The token-rewriting loop of `TransformFunctionBodyFull` from
transform.go, over an already tokenized body.  `im` is the CM import map,
`cim` the C import map, `en` the enum-value map, `gl` the global-variable
map. -/
def transformToks (im cim en gl : SMap) : List Tok → String
  | [] => ""
  | Tok.dot :: rest => "." ++ transformToks im cim en gl rest
  | Tok.other s :: rest => s ++ transformToks im cim en gl rest
  | Tok.ident p :: rest =>
    match _hr : rest with
    | Tok.dot :: rest2 =>
      if (mfind cim p).isSome then
        match _hr2 : rest2 with
        | Tok.ident s :: rest3 => s ++ transformToks im cim en gl rest3
        | _ => transformToks im cim en gl rest2
      else
        match mfind im p with
        | some fullPath =>
          goJoin "_" (SanitizeModuleName fullPath :: (collectQual rest2).1) ++
            transformToks im cim en gl (collectQual rest2).2
        | none => p ++ transformToks im cim en gl rest
    | _ =>
      (match mfind en p with
       | some r => r
       | none =>
         match mfind gl p with
         | some r => r
         | none => p) ++ transformToks im cim en gl rest
termination_by ts => ts.length
decreasing_by
  all_goals simp_wf
  all_goals subst_vars
  all_goals try simp only [List.length_cons]
  all_goals first
    | omega
    | exact Nat.lt_succ_of_le (Nat.le_succ_of_le (collectQual_len _))

/-- `TransformFunctionBodyFull` from transform.go. -/
def TransformFunctionBodyFull (body : String) (im cim en gl : SMap) : String :=
  transformToks im cim en gl (tokenize body)

/-- `extractEnumValues` from internal/codegen/codegen.go: collect
`Name -> Module_EnumName_Name` entries from an enum body. -/
def extractEnumValues (body enumName moduleName : String) : SMap :=
  match idxOfSub body.data [lbrace], lastIdxCh body.data rbrace with
  | some i, some j =>
    if i ≥ j then []
    else
      let pfx := moduleName ++ "_" ++ enumName ++ "_"
      let inner := String.mk ((body.data.drop (i + 1)).take (j - i - 1))
      (goSplitCh ',' inner).foldl
        (fun m v =>
          let v := trimSpace v
          if v = "" then m
          else
            let v := match idxOfSub v.data ['='] with
              | some e => trimSpace (String.mk (v.data.take e))
              | none => v
            if v = "" then m
            else if (mfind m v).isSome then m.map (fun kv => if kv.1 = v then (v, pfx ++ v) else kv)
            else m ++ [(v, pfx ++ v)])
        []
  | _, _ => []

/-- Token run `ident (dot ident)*` built from a list of identifiers. -/
def qualChain : List String → List Tok
  | [] => []
  | [s] => [Tok.ident s]
  | s :: ss => Tok.ident s :: Tok.dot :: qualChain ss

/-- The token list does not continue the qualified run: it is empty or
starts with an `other` token. -/
def headOtherOrNil : List Tok → Bool
  | [] => true
  | Tok.other _ :: _ => true
  | _ => false

/-- The token list does not start with a dot. -/
def headNotDot : List Tok → Bool
  | Tok.dot :: _ => false
  | _ => true

theorem collectQual_qualChain (ss : List String) (rest : List Tok) (hne : ss ≠ [])
    (hres : headOtherOrNil rest = true) :
    collectQual (qualChain ss ++ rest) = (ss, rest) := by
  match ss with
  | [s] =>
    simp only [qualChain, List.cons_append, List.nil_append]
    match rest with
    | [] => simp [collectQual]
    | Tok.other t :: r => simp [collectQual]
    | Tok.ident t :: r => simp [headOtherOrNil] at hres
    | Tok.dot :: r => simp [headOtherOrNil] at hres
  | s1 :: s2 :: ss2 =>
    have ih := collectQual_qualChain (s2 :: ss2) rest (by simp) hres
    simp only [qualChain, List.cons_append]
    simp [collectQual, ih]

/-- C1 (amended).  When an identifier token followed by a `Dot` is a
CM import prefix mapping to import path `P` (and not a C import prefix),
the transformer emits `sanitize(P)` and then, for each identifier of the
following `Dot`-`Ident` run, an underscore and that identifier.  When a
file imports `"utils/io"` the import prefix is the last path segment
`io`, so the body run `io.read` rewrites to `utils_io_read`; when it
imports `"state"`, `state.State.IDLE` rewrites to `state_State_IDLE`. -/
theorem c1_deep_qualified_access :
    (∀ im cim en gl p fullPath ss rest,
        mfind cim p = none → mfind im p = some fullPath → ss ≠ [] →
        headOtherOrNil rest = true →
        transformToks im cim en gl (Tok.ident p :: Tok.dot :: (qualChain ss ++ rest)) =
          goJoin "_" (SanitizeModuleName fullPath :: ss) ++
            transformToks im cim en gl rest) ∧
    TransformFunctionBodyFull "io.read" [("io", "utils/io")] [] [] [] = "utils_io_read" ∧
    TransformFunctionBodyFull "state.State.IDLE" [("state", "state")] [] [] [] =
      "state_State_IDLE" := by
  refine ⟨?_, ?_, ?_⟩
  · intro im cim en gl p fullPath ss rest h1 h2 h3 h4
    have hc := collectQual_qualChain ss rest h3 h4
    rw [transformToks.eq_def]
    simp only [h1, h2, hc, Option.isSome_none, Bool.false_eq_true, if_false]
  · simp [TransformFunctionBodyFull, tokenize, tokLoop, consumeLit, emitCur, squote,
      isIdentStart, isIdentContinue, transformToks, collectQual, mfind, List.lookup,
      SanitizeModuleName, goJoin]
  · simp [TransformFunctionBodyFull, tokenize, tokLoop, consumeLit, emitCur, squote,
      isIdentStart, isIdentContinue, transformToks, collectQual, mfind, List.lookup,
      SanitizeModuleName, goJoin]

/-- Witness for C1: the general clause applied at a concrete input. -/
theorem c1_deep_qualified_access_witness :
    (mfind ([] : SMap) "io" = none ∧ mfind [("io", "utils/io")] "io" = some "utils/io") ∧
    transformToks [("io", "utils/io")] [] [] []
        (Tok.ident "io" :: Tok.dot :: (qualChain ["read"] ++ [Tok.other "()"])) =
      goJoin "_" (SanitizeModuleName "utils/io" :: ["read"]) ++
        transformToks [("io", "utils/io")] [] [] [] [Tok.other "()"] :=
  ⟨⟨by simp [mfind], by simp [mfind, List.lookup]⟩,
    c1_deep_qualified_access.1 _ _ _ _ _ _ _ _ (by simp [mfind])
      (by simp [mfind, List.lookup]) (by simp) (by simp [headOtherOrNil])⟩

/-- Counterexample for C1 as stated: with imports `["utils/io"]` the import
map keys the prefix `io`, so the body run `utils.io.read` is rewritten to
`utils.utils_io_read`, not `utils_io_read`. -/
theorem c1_counterexample :
    BuildImportMap ["utils/io"] = Except.ok [("io", "utils/io")] ∧
    TransformFunctionBodyFull "utils.io.read" [("io", "utils/io")] [] [] [] =
      "utils.utils_io_read" ∧
    "utils.utils_io_read" ≠ "utils_io_read" := by
  refine ⟨by simp [BuildImportMap, lastPathSeg, goSplitCh, splitByAux, mfind], ?_, by decide⟩
  simp [TransformFunctionBodyFull, tokenize, tokLoop, consumeLit, emitCur, squote,
    isIdentStart, isIdentContinue, transformToks, collectQual, mfind, List.lookup,
    SanitizeModuleName, goJoin]

/-- Enum-value map extracted from `pub enum State { TODO, DONE };` in
module `state`, via `extractEnumValues`. -/
def c2EnumMap : SMap := extractEnumValues "\x7b TODO, DONE \x7d" "State" "state"

/-- A function body containing `TODO` as a plain token, inside a string
literal, inside a line comment, and inside a character literal. -/
def c2Body : String :=
  "\x7b x = TODO; s = \"TODO\"; // TODO\n y = " ++
    String.mk ([squote] ++ "TODO".data ++ [squote]) ++ "; \x7d"

/-- The transformer's actual output on `c2Body`: the plain token and the
comment occurrence are rewritten, the string and character literals are
untouched. -/
def c2Out : String :=
  "\x7b x = state_State_TODO; s = \"TODO\"; // state_State_TODO\n y = " ++
    String.mk ([squote] ++ "TODO".data ++ [squote]) ++ "; \x7d"

theorem c2EnumMap_eval :
    c2EnumMap = [("TODO", "state_State_TODO"), ("DONE", "state_State_DONE")] := by rfl

/-- C2 (amended).  For `pub enum State { TODO, DONE };` in module `state`,
a bare identifier token `TODO` that is not followed by a dot is rewritten
by the body transformer to `state_State_TODO`; occurrences inside string
literals and character literals are left unchanged, but occurrences inside
comments are rewritten as well, because the tokenizer does not recognise
comments. -/
theorem c2_enum_value_rewriting :
    mfind c2EnumMap "TODO" = some "state_State_TODO" ∧
    mfind c2EnumMap "DONE" = some "state_State_DONE" ∧
    (∀ im cim en gl s r rest, mfind en s = some r → headNotDot rest = true →
      transformToks im cim en gl (Tok.ident s :: rest) =
        r ++ transformToks im cim en gl rest) ∧
    TransformFunctionBodyFull c2Body [] [] c2EnumMap [] = c2Out := by
  refine ⟨by rfl, by rfl, ?_, ?_⟩
  · intro im cim en gl s r rest h1 h2
    match rest with
    | Tok.dot :: r2 => simp [headNotDot] at h2
    | [] => rw [transformToks.eq_def]; simp only [h1]
    | Tok.ident t :: r2 => rw [transformToks.eq_def]; simp only [h1]
    | Tok.other t :: r2 => rw [transformToks.eq_def]; simp only [h1]
  · simp [TransformFunctionBodyFull, c2Body, c2Out, c2EnumMap_eval, tokenize,
      tokLoop, consumeLit, emitCur, squote, isIdentStart, isIdentContinue,
      transformToks, collectQual, mfind, List.lookup]
    decide

/-- Witness for C2: the general replacement clause applied concretely. -/
theorem c2_enum_value_rewriting_witness :
    (mfind c2EnumMap "TODO" = some "state_State_TODO" ∧
      headNotDot [Tok.other ";"] = true) ∧
    transformToks [] [] c2EnumMap [] (Tok.ident "TODO" :: [Tok.other ";"]) =
      "state_State_TODO" ++ transformToks [] [] c2EnumMap [] [Tok.other ";"] :=
  ⟨⟨by rfl, by rfl⟩,
    c2_enum_value_rewriting.2.2.1 _ _ _ _ _ _ _ (by rfl) (by rfl)⟩

/-- Counterexample for C2 as stated: an occurrence of `TODO` inside a line
comment is rewritten, not left unchanged. -/
theorem c2_counterexample :
    TransformFunctionBodyFull "// TODO" [] [] c2EnumMap [] = "// state_State_TODO" ∧
    "// state_State_TODO" ≠ "// TODO" := by
  refine ⟨?_, by decide⟩
  simp [TransformFunctionBodyFull, c2EnumMap_eval, tokenize,
    tokLoop, consumeLit, emitCur, squote, isIdentStart, isIdentContinue,
    transformToks, collectQual, mfind, List.lookup]
  decide

/-- `BuildContext` from internal/project/project.go.  The Go
`Tags map[string]bool` set is modelled as the list of tags mapped to
`true`. -/
structure BuildContext where
  os : String
  arch : String
  tags : List String
  release : Bool

/-- Known OS tags recognised by `matchesTag`. -/
def osTagList : List String := ["linux", "darwin", "windows", "freebsd", "openbsd", "netbsd"]

/-- Known architecture tags recognised by `matchesTag`. -/
def archTagList : List String := ["amd64", "arm64", "arm", "386", "mips", "mips64", "ppc64", "s390x"]

/-- `matchesTag` from project.go, on the tag's characters (the leading
`!` branch recurses on the rest of the tag). -/
def matchesTagL : List Char → BuildContext → Bool
  | '!' :: rest, ctx => !(matchesTagL rest ctx)
  | cs, ctx =>
    let tag := String.mk cs
    if osTagList.contains tag then ctx.os == tag
    else if archTagList.contains tag then ctx.arch == tag
    else if tag == "debug" then !ctx.release
    else if tag == "release" then ctx.release
    else ctx.tags.contains tag

/-- `matchesTag` from project.go. -/
def matchesTag (tag : String) (ctx : BuildContext) : Bool := matchesTagL tag.data ctx

/-- `matchesOrGroup` from project.go: some tag of the group matches. -/
def matchesOrGroup (tags : List String) (ctx : BuildContext) : Bool :=
  tags.any (fun t => matchesTag t ctx)

/-- `matchesBuildTags` from project.go: no groups always matches;
otherwise every OR-group must contain a matching tag. -/
def matchesBuildTags (buildTags : List (List String)) (ctx : BuildContext) : Bool :=
  if buildTags = [] then true
  else buildTags.all (fun g => matchesOrGroup g ctx)

/-- A project's module map for cycle detection: ordered association list
from import path to the module's import list (`proj.Modules`, with
`ModuleInfo.Imports`). -/
abbrev ModGraph := List (String × List String)

/-- `inDegree[k]++` (a missing key is created with value 1). -/
def bumpDeg (m : List (String × Int)) (k : String) : List (String × Int) :=
  if (List.lookup k m).isSome then
    m.map (fun kv => if kv.1 = k then (kv.1, kv.2 + 1) else kv)
  else m ++ [(k, 1)]

/-- `inDegree[k]--` (a missing key is created with value -1). -/
def decDeg (m : List (String × Int)) (k : String) : List (String × Int) :=
  if (List.lookup k m).isSome then
    m.map (fun kv => if kv.1 = k then (kv.1, kv.2 - 1) else kv)
  else m ++ [(k, -1)]

/-- One module's contribution to the in-degree map in `detectCycles`:
ensure an entry for the module key, then bump each import's entry. -/
def degStep (m : List (String × Int)) (pm : String × List String) : List (String × Int) :=
  pm.2.foldl bumpDeg (if (List.lookup pm.1 m).isSome then m else m ++ [(pm.1, 0)])

/-- The in-degree map built by the first loop of `detectCycles`. -/
def buildInDegree (ms : ModGraph) : List (String × Int) :=
  ms.foldl degStep []

/-- `graph[current]` in `detectCycles` (a missing key yields no
neighbours). -/
def graphFind (ms : ModGraph) (k : String) : List String :=
  match List.lookup k ms with
  | some imps => imps
  | none => []

/-- One queue step of Kahn's algorithm in `detectCycles`: decrement each
neighbour of the popped node and enqueue those that reach zero. -/
def kahnStep (indeg : List (String × Int)) (queue : List String) (neighbors : List String) :
    List (String × Int) × List String :=
  neighbors.foldl
    (fun st nb =>
      let m2 := decDeg st.1 nb
      if List.lookup nb m2 = some 0 then (m2, st.2 ++ [nb]) else (m2, st.2))
    (indeg, queue)

/-- The queue loop of `detectCycles`, counting processed nodes.  The fuel
bounds the number of pops; every node is enqueued at most once (it is
enqueued exactly when its strictly decreasing degree reaches 0, or
initially when it starts at 0), so `(buildInDegree ms).length + 1` pops
never occur and the fuel is not a semantic restriction. -/
def kahnLoop (graph : ModGraph) : Nat → List String → List (String × Int) → Nat → Nat
  | 0, _, _, processed => processed
  | _ + 1, [], _, processed => processed
  | fuel + 1, current :: queue, indeg, processed =>
    let st := kahnStep indeg queue (graphFind graph current)
    kahnLoop graph fuel st.2 st.1 (processed + 1)

/-- The number of nodes processed by the topological sort of
`detectCycles`. -/
def kahnProcessedCount (ms : ModGraph) : Nat :=
  let indeg := buildInDegree ms
  let queue := indeg.filterMap (fun kv => if kv.2 = 0 then some kv.1 else none)
  kahnLoop ms (indeg.length + 1) queue indeg 0

/-- `detectCycles` from project.go: Kahn's topological sort; error if the
number of processed nodes differs from the number of modules. -/
def detectCycles (ms : ModGraph) : Except String Unit :=
  if kahnProcessedCount ms ≠ ms.length then
    Except.error "circular dependency detected among modules"
  else Except.ok ()

theorem lookup_eq_none_iff {β : Type} (k : String) (m : List (String × β)) :
    List.lookup k m = none ↔ k ∉ m.map Prod.fst := by
  induction m with
  | nil => simp
  | cons a t ih =>
    by_cases h : k = a.1
    · simp [List.lookup, h]
    · have hb : (k == a.1) = false := by simp [h]
      simp [List.lookup, hb, ih, h]

theorem lookup_isSome_iff {β : Type} (k : String) (m : List (String × β)) :
    (List.lookup k m).isSome = true ↔ k ∈ m.map Prod.fst := by
  rcases ho : List.lookup k m with _ | v
  · simpa [ho] using (lookup_eq_none_iff k m).mp ho
  · have : ¬(List.lookup k m = none) := by simp [ho]
    rw [lookup_eq_none_iff] at this
    simpa [ho] using not_not.mp this

theorem keys_bumpDeg (m : List (String × Int)) (k : String) :
    (bumpDeg m k).map Prod.fst =
      if (List.lookup k m).isSome then m.map Prod.fst else m.map Prod.fst ++ [k] := by
  unfold bumpDeg
  split
  · rw [List.map_map]
    apply List.map_congr_left
    intro kv _
    by_cases hk : kv.1 = k <;> simp [hk]
  · simp

theorem mem_keys_bumpDeg_mono (m : List (String × Int)) (k x : String)
    (h : x ∈ m.map Prod.fst) : x ∈ (bumpDeg m k).map Prod.fst := by
  rw [keys_bumpDeg]
  split <;> simp [h]

theorem mem_keys_bumpDeg_self (m : List (String × Int)) (k : String) :
    k ∈ (bumpDeg m k).map Prod.fst := by
  rw [keys_bumpDeg]
  split
  · exact (lookup_isSome_iff k m).mp (by assumption)
  · simp

theorem nodup_keys_bumpDeg (m : List (String × Int)) (k : String)
    (h : (m.map Prod.fst).Nodup) : ((bumpDeg m k).map Prod.fst).Nodup := by
  rw [keys_bumpDeg]
  split
  · exact h
  · next hn =>
    have : k ∉ m.map Prod.fst := by
      rw [← lookup_eq_none_iff, ← Option.not_isSome_iff_eq_none]
      simpa using hn
    simp [List.nodup_append, h, this]

theorem foldl_bump_mem_mono (imps : List String) (m : List (String × Int)) (x : String)
    (h : x ∈ m.map Prod.fst) : x ∈ (imps.foldl bumpDeg m).map Prod.fst := by
  induction imps generalizing m with
  | nil => exact h
  | cons i t ih => exact ih (bumpDeg m i) (mem_keys_bumpDeg_mono m i x h)

theorem foldl_bump_mem_self (imps : List String) (m : List (String × Int)) (i : String)
    (h : i ∈ imps) : i ∈ (imps.foldl bumpDeg m).map Prod.fst := by
  induction imps generalizing m with
  | nil => cases h
  | cons j t ih =>
    rcases List.mem_cons.mp h with rfl | hm
    · exact foldl_bump_mem_mono t (bumpDeg m i) i (mem_keys_bumpDeg_self m i)
    · exact ih (bumpDeg m j) hm

theorem foldl_bump_nodup (imps : List String) (m : List (String × Int))
    (h : (m.map Prod.fst).Nodup) : ((imps.foldl bumpDeg m).map Prod.fst).Nodup := by
  induction imps generalizing m with
  | nil => exact h
  | cons i t ih => exact ih (bumpDeg m i) (nodup_keys_bumpDeg m i h)

theorem mem_keys_degStep_mono (m : List (String × Int)) (pm : String × List String)
    (x : String) (h : x ∈ m.map Prod.fst) : x ∈ (degStep m pm).map Prod.fst := by
  unfold degStep
  apply foldl_bump_mem_mono
  split <;> simp [h]

theorem mem_keys_degStep_key (m : List (String × Int)) (pm : String × List String) :
    pm.1 ∈ (degStep m pm).map Prod.fst := by
  unfold degStep
  apply foldl_bump_mem_mono
  split
  · exact (lookup_isSome_iff pm.1 m).mp (by assumption)
  · simp

theorem mem_keys_degStep_import (m : List (String × Int)) (pm : String × List String)
    (i : String) (h : i ∈ pm.2) : i ∈ (degStep m pm).map Prod.fst := by
  unfold degStep
  exact foldl_bump_mem_self pm.2 _ i h

theorem nodup_keys_degStep (m : List (String × Int)) (pm : String × List String)
    (h : (m.map Prod.fst).Nodup) : ((degStep m pm).map Prod.fst).Nodup := by
  unfold degStep
  apply foldl_bump_nodup
  split
  · exact h
  · next hn =>
    have : pm.1 ∉ m.map Prod.fst := by
      rw [← lookup_eq_none_iff, ← Option.not_isSome_iff_eq_none]
      simpa using hn
    simp [List.nodup_append, h, this]

theorem foldl_degStep_mem_mono (ms : ModGraph) (m : List (String × Int)) (x : String)
    (h : x ∈ m.map Prod.fst) : x ∈ (ms.foldl degStep m).map Prod.fst := by
  induction ms generalizing m with
  | nil => exact h
  | cons pm t ih => exact ih (degStep m pm) (mem_keys_degStep_mono m pm x h)

theorem foldl_degStep_mem_module (ms : ModGraph) (m : List (String × Int))
    (pm : String × List String) (h : pm ∈ ms) : pm.1 ∈ (ms.foldl degStep m).map Prod.fst := by
  induction ms generalizing m with
  | nil => cases h
  | cons q t ih =>
    rcases List.mem_cons.mp h with rfl | hm
    · exact foldl_degStep_mem_mono t (degStep m pm) pm.1 (mem_keys_degStep_key m pm)
    · exact ih (degStep m q) hm

theorem foldl_degStep_mem_import (ms : ModGraph) (m : List (String × Int))
    (pm : String × List String) (i : String) (hpm : pm ∈ ms) (hi : i ∈ pm.2) :
    i ∈ (ms.foldl degStep m).map Prod.fst := by
  induction ms generalizing m with
  | nil => cases hpm
  | cons q t ih =>
    rcases List.mem_cons.mp hpm with rfl | hm
    · exact foldl_degStep_mem_mono t (degStep m pm) i (mem_keys_degStep_import m pm i hi)
    · exact ih (degStep m q) hm

/-- C3.  Discovery's cycle check: `detectCycles` succeeds exactly when
Kahn's topological sort processes as many nodes as there are modules; the
acyclic graph `a -> b, a -> c` passes, and the cycle `a -> b, b -> a`
fails with an error message containing the word "circular". -/
theorem c3_cycle_detection :
    (∀ ms : ModGraph, detectCycles ms = Except.ok () ↔ kahnProcessedCount ms = ms.length) ∧
    detectCycles [("a", ["b", "c"]), ("b", []), ("c", [])] = Except.ok () ∧
    detectCycles [("a", ["b"]), ("b", ["a"])] =
      Except.error "circular dependency detected among modules" ∧
    containsSub "circular dependency detected among modules" "circular" = true := by
  refine ⟨?_, by rfl, by rfl, by decide⟩
  intro ms
  by_cases h : kahnProcessedCount ms = ms.length <;> simp [detectCycles, h]

/-- Build context `OS=linux`, `Arch=amd64`, no custom tags, debug mode. -/
def linuxCtx : BuildContext := ⟨"linux", "amd64", [], false⟩

/-- Build context `OS=windows`, `Arch=amd64`, no custom tags, debug mode. -/
def windowsCtx : BuildContext := ⟨"windows", "amd64", [], false⟩

/-- C5.  A file's build-tag matrix matches iff every OR-group contains at
least one matching tag; a leading `!` negates a tag; OS tags compare with
the context OS, arch tags with the context arch, `debug`/`release` with
the release flag, and custom tags require explicit presence.  Concretely,
with OS=linux/Arch=amd64: `[[linux]]` matches, `[[windows]]` does not,
`[[linux,darwin]]` matches, `[[linux],[amd64]]` matches, `[[!windows]]`
matches on linux and fails on windows. -/
theorem c5_build_tag_matching :
    (∀ (bt : List (List String)) (ctx : BuildContext),
        matchesBuildTags bt ctx = true ↔ ∀ g ∈ bt, ∃ t ∈ g, matchesTag t ctx = true) ∧
    (∀ (t : List Char) (ctx : BuildContext),
        matchesTag (String.mk ('!' :: t)) ctx = !(matchesTagL t ctx)) ∧
    (∀ ctx : BuildContext,
        matchesTag "linux" ctx = (ctx.os == "linux") ∧
        matchesTag "amd64" ctx = (ctx.arch == "amd64") ∧
        matchesTag "debug" ctx = !ctx.release ∧
        matchesTag "release" ctx = ctx.release ∧
        matchesTag "fancy" ctx = ctx.tags.contains "fancy") ∧
    matchesBuildTags [["linux"]] linuxCtx = true ∧
    matchesBuildTags [["windows"]] linuxCtx = false ∧
    matchesBuildTags [["linux", "darwin"]] linuxCtx = true ∧
    matchesBuildTags [["linux"], ["amd64"]] linuxCtx = true ∧
    matchesBuildTags [["!windows"]] linuxCtx = true ∧
    matchesBuildTags [["!windows"]] windowsCtx = false ∧
    matchesTag "fancy" linuxCtx = false ∧
    matchesTag "fancy" ⟨"linux", "amd64", ["fancy"], false⟩ = true := by
  refine ⟨?_, ?_, ?_, by decide, by decide, by decide, by decide, by decide, by decide,
    by decide, by decide⟩
  · intro bt ctx
    by_cases h : bt = []
    · subst h
      simp [matchesBuildTags]
    · simp [matchesBuildTags, h, matchesOrGroup, List.all_eq_true, List.any_eq_true]
  · intro t ctx
    rfl
  · intro ctx
    refine ⟨?_, ?_, ?_, ?_, ?_⟩ <;>
      simp [matchesTag, matchesTagL, osTagList, archTagList]

/-- Go `strings.HasSuffix(s, "*")`: the last character is `*`. -/
def endsWithStar (s : String) : Bool :=
  match s.data.reverse.head? with
  | some c => c = '*'
  | none => false

/-- Go `strings.TrimRight(s, "*")`: drop all trailing `*`s. -/
def trimStars (s : String) : String :=
  String.mk ((s.data.reverse.dropWhile (fun c => c = '*')).reverse)

/-- The trailing `*`s of `s` (`typeName[len(baseType):]` in
`mangleTypeInSignature`). -/
def starSuffix (s : String) : String :=
  String.mk ((s.data.reverse.takeWhile (fun c => c = '*')).reverse)

theorem trimStars_len_lt (s : String) (h : endsWithStar s = true) :
    (trimStars s).length < s.length := by
  unfold endsWithStar at h
  rcases hr : s.data.reverse with _ | ⟨c, rest⟩
  · rw [hr] at h
    simp at h
  · rw [hr] at h
    simp only [List.head?_cons] at h
    have hc : c = '*' := by simpa using h
    subst hc
    have h1 : (List.dropWhile (fun c => c = '*') ('*' :: rest)).length ≤ rest.length := by
      rw [List.dropWhile_cons]
      simpa using (List.dropWhile_sublist (fun c : Char => c = '*')).length_le
    have h2 : s.data.length = rest.length + 1 := by
      have h3 := congrArg List.length hr
      simpa using h3
    show (String.mk ((s.data.reverse.dropWhile (fun c => c = '*')).reverse)).length < s.length
    rw [hr]
    show (List.dropWhile (fun c => c = '*') ('*' :: rest)).reverse.length < s.data.length
    rw [List.length_reverse]
    omega

/-- The primitive C type names recognised by `mangleTypeInSignature`. -/
def primitivesList : List String :=
  ["void", "char", "short", "int", "long", "float", "double", "unsigned", "signed",
   "size_t", "ssize_t", "int8_t", "int16_t", "int32_t", "int64_t",
   "uint8_t", "uint16_t", "uint32_t", "uint64_t", "intptr_t", "uintptr_t", "ptrdiff_t"]

/-- Split a type at its first dot (`strings.SplitN(typeName, ".", 2)`). -/
def splitFirstDot (s : String) : String × String :=
  (String.mk (s.data.takeWhile (fun c => c ≠ '.')),
   String.mk ((s.data.dropWhile (fun c => c ≠ '.')).drop 1))

/-- `mangleTypeInSignature` from internal/codegen/codegen.go. -/
def mangleTypeInSignature (typeName moduleName : String) : String :=
  if endsWithStar typeName then
    mangleTypeInSignature (trimStars typeName) moduleName ++ starSuffix typeName
  else if hasPrefixStr typeName "struct " then typeName
  else if hasPrefixStr typeName "union " then typeName
  else if hasPrefixStr typeName "enum " then typeName
  else
    match goFields typeName with
    | [] => typeName
    | w :: _ =>
      if primitivesList.contains w then typeName
      else if containsSub typeName "." then
        (splitFirstDot typeName).1 ++ "_" ++ (splitFirstDot typeName).2
      else moduleName ++ "_" ++ typeName
termination_by typeName.length
decreasing_by
  exact trimStars_len_lt _ (by assumption)

/-- `Param` from the parser (internal/parser). -/
structure Param where
  name : String
  type : String
deriving DecidableEq, Repr

/-- `FuncDecl` from the parser, restricted to the fields the signature
generator reads. -/
structure FuncDecl where
  public : Bool
  returnType : String
  name : String
  params : List Param
deriving DecidableEq, Repr

/-- The per-parameter rendering of `generateFunctionSignature`: variadic,
function-pointer (name inserted into `(*)`), or `type name`. -/
def renderParam (p : Param) (moduleName : String) : String :=
  if p.type = "..." then "..."
  else
    let pt := mangleTypeInSignature p.type moduleName
    if containsSub pt "(*)" then replaceFirst pt "(*)" ("(*" ++ p.name ++ ")")
    else pt ++ " " ++ p.name

/-- `generateFunctionSignature` from internal/codegen/codegen.go. -/
def generateFunctionSignature (fn : FuncDecl) (moduleName : String) : String :=
  (mangleTypeInSignature (if fn.returnType = "" then "void" else fn.returnType) moduleName) ++
    " " ++ (if fn.name ≠ "main" then moduleName ++ "_" ++ fn.name else fn.name) ++ "(" ++
    goJoin ", " (fn.params.map (fun p => renderParam p moduleName)) ++ ")"

/-- The comma-splitting loop of `splitParamsRespectingParens` from
internal/parser (types_test.go). -/
def splitRPAux : List Char → Int → List Char → List String → List String
  | [], _, cur, acc => if cur = [] then acc else acc ++ [String.mk cur]
  | c :: cs, depth, cur, acc =>
    if c = '(' then splitRPAux cs (depth + 1) (cur ++ [c]) acc
    else if c = ')' then splitRPAux cs (depth - 1) (cur ++ [c]) acc
    else if c = ',' then
      if depth = 0 then splitRPAux cs depth [] (acc ++ [String.mk cur])
      else splitRPAux cs depth (cur ++ [c]) acc
    else splitRPAux cs depth (cur ++ [c]) acc

/-- `splitParamsRespectingParens` from the parser. -/
def splitParamsRespectingParens (s : String) : List String := splitRPAux s.data 0 [] []

/-- `parseFunctionPointerParam` from the parser: extract the name between
`(*` and the next `)`, and keep the type with `(*)` in place. -/
def parseFunctionPointerParam (part : String) : Option Param :=
  match idxOfSub part.data "(*".data with
  | none => none
  | some sp =>
    match idxOfSub (part.data.drop sp) ")".data with
    | none => none
    | some epRel =>
      some ⟨trimSpace (String.mk ((part.data.drop (sp + 2)).take (epRel + sp - (sp + 2)))),
        String.mk (part.data.take (sp + 2)) ++ String.mk (part.data.drop (epRel + sp))⟩

/-- `parseParams` from the parser. -/
def parseParams (paramStr : String) : List Param :=
  if trimSpace paramStr = "" then []
  else
    (splitParamsRespectingParens paramStr).foldl
      (fun acc part0 =>
        let part := trimSpace part0
        if part = "" then acc
        else if part = "..." then acc ++ [⟨"", "..."⟩]
        else if containsSub part "(*" then
          match parseFunctionPointerParam part with
          | some p => acc ++ [p]
          | none => acc
        else
          match goFields part with
          | [] => acc
          | [_] => acc
          | fs => acc ++ [⟨fs.getLastD "", goJoin " " fs.dropLast⟩])
      []

theorem mk_data (s : String) : String.mk s.data = s := rfl

theorem mangle_void (m : String) : mangleTypeInSignature "void" m = "void" := by
  rw [mangleTypeInSignature.eq_def]
  simp [endsWithStar, hasPrefixStr, goFields, splitByAux, isSpaceCh, primitivesList]

theorem dropWhile_star_of_not_ends (t : String) (h : endsWithStar t = false) :
    List.dropWhile (fun c => c = '*') t.data.reverse = t.data.reverse := by
  cases ht : t.data.reverse with
  | nil => simp
  | cons a l =>
    unfold endsWithStar at h
    rw [ht] at h
    simp only [List.head?_cons] at h
    rw [List.dropWhile_cons, if_neg (by simpa using h)]

theorem takeWhile_star_of_not_ends (t : String) (h : endsWithStar t = false) :
    List.takeWhile (fun c => c = '*') t.data.reverse = [] := by
  cases ht : t.data.reverse with
  | nil => simp
  | cons a l =>
    unfold endsWithStar at h
    rw [ht] at h
    simp only [List.head?_cons] at h
    rw [List.takeWhile_cons, if_neg (by simpa using h)]

theorem endsWithStar_append_star (t : String) : endsWithStar (t ++ "*") = true := by
  unfold endsWithStar
  rw [String.data_append]
  simp

theorem trimStars_append_star (t : String) (h : endsWithStar t = false) :
    trimStars (t ++ "*") = t := by
  unfold trimStars
  rw [String.data_append]
  have hrev : ("*".data ++ t.data.reverse : List Char) = '*' :: t.data.reverse := by simp
  rw [show (t.data ++ "*".data).reverse = '*' :: t.data.reverse by simp]
  rw [List.dropWhile_cons]
  simp only [decide_True, if_true]
  rw [dropWhile_star_of_not_ends t h, List.reverse_reverse, mk_data]

theorem starSuffix_append_star (t : String) (h : endsWithStar t = false) :
    starSuffix (t ++ "*") = "*" := by
  unfold starSuffix
  rw [String.data_append]
  rw [show (t.data ++ "*".data).reverse = '*' :: t.data.reverse by simp]
  rw [List.takeWhile_cons]
  simp only [decide_True, if_true]
  rw [takeWhile_star_of_not_ends t h]
  rfl

/-- C7.  Type mangling in signatures: trailing `*`s are stripped, the base
type mangled, and the `*`s re-appended; types beginning with `struct `,
`union ` or `enum `, and types whose first whitespace-separated word is a
recognised primitive, pass through unchanged; a qualified type `A.B`
becomes `A_B`; any other type is prefixed with the module name (so `Vec3*`
in module `math` becomes `math_Vec3*`). -/
theorem c7_type_mangling :
    (∀ t m, endsWithStar t = false →
        mangleTypeInSignature (t ++ "*") m = mangleTypeInSignature t m ++ "*") ∧
    (∀ t m, endsWithStar t = false → hasPrefixStr t "struct " = true →
        mangleTypeInSignature t m = t) ∧
    (∀ t m, endsWithStar t = false → hasPrefixStr t "struct " = false →
        hasPrefixStr t "union " = true → mangleTypeInSignature t m = t) ∧
    (∀ t m, endsWithStar t = false → hasPrefixStr t "struct " = false →
        hasPrefixStr t "union " = false → hasPrefixStr t "enum " = true →
        mangleTypeInSignature t m = t) ∧
    (∀ t m w ws, endsWithStar t = false → hasPrefixStr t "struct " = false →
        hasPrefixStr t "union " = false → hasPrefixStr t "enum " = false →
        goFields t = w :: ws → primitivesList.contains w = true →
        mangleTypeInSignature t m = t) ∧
    (∀ t m w ws, endsWithStar t = false → hasPrefixStr t "struct " = false →
        hasPrefixStr t "union " = false → hasPrefixStr t "enum " = false →
        goFields t = w :: ws → primitivesList.contains w = false →
        containsSub t "." = true →
        mangleTypeInSignature t m = (splitFirstDot t).1 ++ "_" ++ (splitFirstDot t).2) ∧
    (∀ t m w ws, endsWithStar t = false → hasPrefixStr t "struct " = false →
        hasPrefixStr t "union " = false → hasPrefixStr t "enum " = false →
        goFields t = w :: ws → primitivesList.contains w = false →
        containsSub t "." = false →
        mangleTypeInSignature t m = m ++ "_" ++ t) ∧
    (∀ m, mangleTypeInSignature "ticket.Ticket" m = "ticket_Ticket") ∧
    mangleTypeInSignature "Vec3*" "math" = "math_Vec3*" := by
  refine ⟨?_, ?_, ?_, ?_, ?_, ?_, ?_, ?_, ?_⟩
  · intro t m h
    conv_lhs => rw [mangleTypeInSignature.eq_def]
    rw [endsWithStar_append_star t, trimStars_append_star t h, starSuffix_append_star t h]
    simp
  · intro t m h h1
    rw [mangleTypeInSignature.eq_def]
    simp [h, h1]
  · intro t m h h1 h2
    rw [mangleTypeInSignature.eq_def]
    simp [h, h1, h2]
  · intro t m h h1 h2 h3
    rw [mangleTypeInSignature.eq_def]
    simp [h, h1, h2, h3]
  · intro t m w ws h h1 h2 h3 h4 h5
    rw [mangleTypeInSignature.eq_def]
    simp [h, h1, h2, h3, h4, h5]
    intro hw
    exact absurd (by simpa using h5) hw
  · intro t m w ws h h1 h2 h3 h4 h5 h6
    rw [mangleTypeInSignature.eq_def]
    simp [h, h1, h2, h3, h4, h5, h6]
    intro hw
    exact absurd hw (by simpa using h5)
  · intro t m w ws h h1 h2 h3 h4 h5 h6
    rw [mangleTypeInSignature.eq_def]
    simp [h, h1, h2, h3, h4, h5, h6]
    intro hw
    exact absurd hw (by simpa using h5)
  · intro m
    rw [mangleTypeInSignature.eq_def]
    have hdot : containsSub "ticket.Ticket" "." = true := by decide
    simp [endsWithStar, hasPrefixStr, goFields, splitByAux, isSpaceCh, primitivesList,
      hdot, splitFirstDot]
  · rw [mangleTypeInSignature.eq_def]
    have hdot : containsSub "Vec3" "." = false := by decide
    simp [endsWithStar, hasPrefixStr, goFields, splitByAux, isSpaceCh, primitivesList,
      trimStars, starSuffix]
    rw [mangleTypeInSignature.eq_def]
    simp [endsWithStar, hasPrefixStr, goFields, splitByAux, isSpaceCh, primitivesList,
      hdot]

/-- Witness for C7: the general clauses applied at concrete types. -/
theorem c7_type_mangling_witness :
    (endsWithStar "Vec3" = false ∧ hasPrefixStr "struct Foo" "struct " = true ∧
      goFields "unsigned int" = ["unsigned", "int"] ∧
      primitivesList.contains "unsigned" = true) ∧
    mangleTypeInSignature ("Vec3" ++ "*") "math" = mangleTypeInSignature "Vec3" "math" ++ "*" ∧
    mangleTypeInSignature "struct Foo" "math" = "struct Foo" ∧
    mangleTypeInSignature "unsigned int" "math" = "unsigned int" :=
  ⟨⟨by decide, by decide, by decide, by decide⟩,
    c7_type_mangling.1 "Vec3" "math" (by decide),
    c7_type_mangling.2.1 "struct Foo" "math" (by decide) (by decide),
    c7_type_mangling.2.2.2.2.1 "unsigned int" "math" "unsigned" ["int"] (by decide) (by decide)
      (by decide) (by decide) (by decide) (by decide)⟩

/-- C6.  Function signature emission: an empty declared return type is
emitted as `void`; the name `main` stays unmangled while every other name
gets the `<Module>_` prefix; parameters are comma-separated with the
variadic parameter emitted as `...`, a function-pointer parameter's name
inserted into the `(*)` of its type, and a normal parameter emitted as
`<mangledType> <name>`; in particular `func log(char* fmt, ...) void` in
module `logging` emits `void logging_log(char* fmt, ...)`. -/
theorem c6_function_signature :
    (∀ (fn : FuncDecl) (m : String), fn.returnType = "" →
        generateFunctionSignature fn m =
          "void" ++ " " ++ (if fn.name ≠ "main" then m ++ "_" ++ fn.name else fn.name) ++
            "(" ++ goJoin ", " (fn.params.map (fun p => renderParam p m)) ++ ")") ∧
    (∀ (pb : Bool) (rt : String) (ps : List Param) (m : String),
        generateFunctionSignature ⟨pb, rt, "main", ps⟩ m =
          mangleTypeInSignature (if rt = "" then "void" else rt) m ++ " " ++ "main" ++ "(" ++
            goJoin ", " (ps.map (fun p => renderParam p m)) ++ ")") ∧
    (∀ (fn : FuncDecl) (m : String), fn.name ≠ "main" →
        generateFunctionSignature fn m =
          mangleTypeInSignature (if fn.returnType = "" then "void" else fn.returnType) m ++
            " " ++ (m ++ "_" ++ fn.name) ++ "(" ++
            goJoin ", " (fn.params.map (fun p => renderParam p m)) ++ ")") ∧
    (∀ (nm m : String), renderParam ⟨nm, "..."⟩ m = "...") ∧
    parseParams "int (*cmp)(void*, void*)" = [⟨"cmp", "int (*)(void*, void*)"⟩] ∧
    (∀ m, renderParam ⟨"cmp", "int (*)(void*, void*)"⟩ m = "int (*cmp)(void*, void*)") ∧
    parseParams "char* fmt, ..." = [⟨"fmt", "char*"⟩, ⟨"", "..."⟩] ∧
    generateFunctionSignature ⟨false, "void", "log", parseParams "char* fmt, ..."⟩ "logging" =
      "void logging_log(char* fmt, ...)" := by
  refine ⟨?_, ?_, ?_, ?_, by decide, ?_, by decide, ?_⟩
  · intro fn m h
    unfold generateFunctionSignature
    rw [h]
    simp [mangle_void]
  · intro pb rt ps m
    unfold generateFunctionSignature
    simp
  · intro fn m h
    unfold generateFunctionSignature
    simp [h]
  · intro nm m
    unfold renderParam
    simp
  · intro m
    unfold renderParam
    have hne : ¬(("int (*)(void*, void*)" : String) = "...") := by decide
    rw [if_neg hne]
    have hm : mangleTypeInSignature "int (*)(void*, void*)" m = "int (*)(void*, void*)" := by
      rw [mangleTypeInSignature.eq_def]
      simp [endsWithStar, hasPrefixStr, goFields, splitByAux, isSpaceCh, primitivesList]
    rw [hm]
    decide
  · have hp : parseParams "char* fmt, ..." = [⟨"fmt", "char*"⟩, ⟨"", "..."⟩] := by decide
    rw [hp]
    unfold generateFunctionSignature renderParam
    have h1 : mangleTypeInSignature "void" "logging" = "void" := mangle_void "logging"
    have h2 : mangleTypeInSignature "char*" "logging" = "char*" := by
      rw [mangleTypeInSignature.eq_def]
      have he : endsWithStar "char*" = true := by decide
      have ht : trimStars "char*" = "char" := by decide
      have hs : starSuffix "char*" = "*" := by decide
      rw [he, ht, hs]
      simp only [if_true]
      rw [mangleTypeInSignature.eq_def]
      simp [endsWithStar, hasPrefixStr, goFields, splitByAux, isSpaceCh, primitivesList]
    simp [h1, h2, goJoin]
    decide

/-- Witness for C6: the general clauses applied at concrete functions. -/
theorem c6_function_signature_witness :
    ((⟨true, "", "add", parseParams "int a, int b"⟩ : FuncDecl).returnType = "" ∧
      (⟨false, "int", "helper", []⟩ : FuncDecl).name ≠ "main") ∧
    generateFunctionSignature ⟨true, "", "add", parseParams "int a, int b"⟩ "math" =
      "void" ++ " " ++ (if "add" ≠ "main" then "math" ++ "_" ++ "add" else "add") ++ "(" ++
        goJoin ", " ((parseParams "int a, int b").map (fun p => renderParam p "math")) ++ ")" ∧
    generateFunctionSignature ⟨false, "int", "helper", []⟩ "math" =
      mangleTypeInSignature (if ("int" : String) = "" then "void" else "int") "math" ++ " " ++
        ("math" ++ "_" ++ "helper") ++ "(" ++
        goJoin ", " (([] : List Param).map (fun p => renderParam p "math")) ++ ")" :=
  ⟨⟨by decide, by decide⟩,
    c6_function_signature.1 ⟨true, "", "add", parseParams "int a, int b"⟩ "math" (by decide),
    c6_function_signature.2.2.1 ⟨false, "int", "helper", []⟩ "math" (by decide)⟩

/-- `GlobalDecl` from the parser, restricted to the fields the code
generator reads. -/
structure GlobalDecl where
  public : Bool
  static : Bool
  type : String
  name : String
  value : String
deriving DecidableEq, Repr

/-- `generateGlobalDefinition` from internal/codegen/codegen.go. -/
def generateGlobalDefinition (g : GlobalDecl) (moduleName : String) : String :=
  (if g.static then "static " ++ g.type ++ " " ++ g.name
   else g.type ++ " " ++ moduleName ++ "_" ++ g.name) ++
    (if g.value ≠ "" then " = " ++ g.value else "") ++ ";"

/-- The global-declaration bucketing of `GenerateModule`: static globals
go to neither header list; the rest are split on the `pub` flag into
the (public, private) lists. -/
def classifyGlobals (ds : List GlobalDecl) : List GlobalDecl × List GlobalDecl :=
  ds.foldl
    (fun acc g =>
      if g.static then acc
      else if g.public then (acc.1 ++ [g], acc.2)
      else (acc.1, acc.2 ++ [g]))
    ([], [])

/-- The `extern` lines that `generatePublicHeader` emits for a module's
globals. -/
def publicHeaderGlobalLines (moduleName : String) (ds : List GlobalDecl) : List String :=
  (classifyGlobals ds).1.map
    (fun g => "extern " ++ g.type ++ " " ++ moduleName ++ "_" ++ g.name ++ ";")

theorem classifyGlobals_fold (ds : List GlobalDecl) (acc : List GlobalDecl × List GlobalDecl) :
    (ds.foldl
        (fun acc g =>
          if g.static then acc
          else if g.public then (acc.1 ++ [g], acc.2)
          else (acc.1, acc.2 ++ [g]))
        acc).1 =
      acc.1 ++ ds.filter (fun g => !g.static && g.public) := by
  induction ds generalizing acc with
  | nil => simp
  | cons g t ih =>
    simp only [List.foldl_cons, List.filter_cons]
    by_cases hs : g.static
    · simp [hs, ih]
    · by_cases hp : g.public
      · simp [hs, hp, ih]
      · simp [hs, hp, ih]

theorem classifyGlobals_fst (ds : List GlobalDecl) :
    (classifyGlobals ds).1 = ds.filter (fun g => !g.static && g.public) := by
  unfold classifyGlobals
  simpa using classifyGlobals_fold ds ([], [])

/-- C8.  Global variable emission: a static global is defined per-file as
`static <Type> <Name> = <Value>;` with no name mangling and never reaches
the public header's extern list, even when marked `pub`; a non-static
global is defined as `<Type> <Module>_<Name> = <Value>;` and, exactly
when public, is declared `extern <Type> <Module>_<Name>;` in the public
header. -/
theorem c8_global_emission :
    (∀ (g : GlobalDecl) (m : String), g.static = true → g.value ≠ "" →
        generateGlobalDefinition g m =
          "static " ++ g.type ++ " " ++ g.name ++ " = " ++ g.value ++ ";") ∧
    (∀ (g : GlobalDecl) (m : String), g.static = false → g.value ≠ "" →
        generateGlobalDefinition g m =
          g.type ++ " " ++ m ++ "_" ++ g.name ++ " = " ++ g.value ++ ";") ∧
    (∀ (m : String) (ds : List GlobalDecl),
        publicHeaderGlobalLines m ds =
          (ds.filter (fun g => !g.static && g.public)).map
            (fun g => "extern " ++ g.type ++ " " ++ m ++ "_" ++ g.name ++ ";")) ∧
    generateGlobalDefinition ⟨true, false, "int", "counter", "0"⟩ "state" =
      "int state_counter = 0;" ∧
    publicHeaderGlobalLines "state" [⟨true, false, "int", "counter", "0"⟩] =
      ["extern int state_counter;"] ∧
    generateGlobalDefinition ⟨false, true, "int", "initialized", "0"⟩ "singleton" =
      "static int initialized = 0;" ∧
    publicHeaderGlobalLines "singleton" [⟨false, true, "int", "initialized", "0"⟩] = [] ∧
    publicHeaderGlobalLines "singleton" [⟨true, true, "int", "initialized", "0"⟩] = [] := by
  refine ⟨?_, ?_, ?_, by decide, by decide, by decide, by decide, by decide⟩
  · intro g m hs hv
    unfold generateGlobalDefinition
    rw [hs]
    simp only [if_true, if_pos hv]
    simp [String.append_assoc]
  · intro g m hs hv
    unfold generateGlobalDefinition
    rw [hs]
    simp only [Bool.false_eq_true, if_false, if_pos hv]
    simp [String.append_assoc]
  · intro m ds
    unfold publicHeaderGlobalLines
    rw [classifyGlobals_fst]

/-- Witness for C8: the definitional clauses applied at concrete
globals. -/
theorem c8_global_emission_witness :
    ((⟨false, true, "float", "ratio_val", "1.5"⟩ : GlobalDecl).static = true ∧
      (⟨true, false, "long", "total", "7"⟩ : GlobalDecl).static = false) ∧
    generateGlobalDefinition ⟨false, true, "float", "ratio_val", "1.5"⟩ "geo" =
      "static " ++ "float" ++ " " ++ "ratio_val" ++ " = " ++ "1.5" ++ ";" ∧
    generateGlobalDefinition ⟨true, false, "long", "total", "7"⟩ "geo" =
      "long" ++ " " ++ "geo" ++ "_" ++ "total" ++ " = " ++ "7" ++ ";" :=
  ⟨⟨by decide, by decide⟩,
    c8_global_emission.1 ⟨false, true, "float", "ratio_val", "1.5"⟩ "geo" (by decide) (by decide),
    c8_global_emission.2.1 ⟨true, false, "long", "total", "7"⟩ "geo" (by decide) (by decide)⟩

/-- Drop one trailing carriage return (`dropCR` in `bufio.ScanLines`). -/
def trimCRstr (s : String) : String :=
  if s.data.getLast? = some '\r' then String.mk s.data.dropLast else s

/-- The lines a `bufio.Scanner` yields on the text: split at every
newline; text after the final newline is a last token only when
non-empty; each token has one trailing carriage return dropped. -/
def scanLines (s : String) : List String :=
  let parts := goSplitCh '\n' s
  (match parts.getLast? with
   | some "" => parts.dropLast
   | _ => parts).map trimCRstr

/-- `lineMapSegment` from internal/lsp/linemap.go. -/
structure LineMapSegment where
  outStartLine : Int
  origStartLine : Int
  origFile : String
deriving DecidableEq, Repr

/-- Parse one generated-C line as a `#line <n> "<path>"` directive, as the
scanner loop of `newLineMapperFromC` does. -/
def lineDirectiveOf (line : String) : Option (Int × String) :=
  let t := trimSpace line
  if hasPrefixStr t "#line " then
    let rest := trimSpace (String.mk (t.data.drop 6))
    match goFields rest with
    | f0 :: _ :: _ =>
      match goAtoi f0 with
      | none => none
      | some n =>
        let quoted := trimSpace (trimSpace (String.mk (rest.data.drop f0.length)))
        if hasPrefixStr quoted "\"" then
          match lastIdxCh quoted.data '"' with
          | some e =>
            if e > 0 then some (n, String.mk ((quoted.data.drop 1).take (e - 1))) else none
          | none => none
        else none
    | _ => none
  else none

/-- `newLineMapperFromC` from internal/lsp/linemap.go: the default segment
plus one segment per `#line` directive, starting at the following
generated line. -/
def newLineMapperFromC (ctext : String) : List LineMapSegment :=
  ⟨1, 1, ""⟩ :: (scanLines ctext).enum.filterMap
    (fun iln => (lineDirectiveOf iln.2).map
      (fun np => ⟨(iln.1 : Int) + 1 + 1, np.1, np.2⟩))

/-- `mapLine` from internal/lsp/linemap.go: pick the last segment whose
start is at or before the queried generated line. -/
def mapLine (segs : List LineMapSegment) (outLine : Int) : String × Int :=
  match segs with
  | [] => ("", outLine)
  | s0 :: _ =>
    let seg := segs.foldl (fun acc s => if s.outStartLine ≤ outLine then s else acc) s0
    if seg.origFile = "" then ("", outLine)
    else
      (seg.origFile,
        seg.origStartLine + (if outLine - seg.outStartLine < 0 then 0 else outLine - seg.outStartLine))

theorem foldl_pick_id (q : Int) (l : List LineMapSegment) (init : LineMapSegment)
    (h : ∀ s ∈ l, ¬(s.outStartLine ≤ q)) :
    l.foldl (fun acc s => if s.outStartLine ≤ q then s else acc) init = init := by
  induction l generalizing init with
  | nil => rfl
  | cons s t ih =>
    rw [List.foldl_cons, if_neg (h s (by simp))]
    exact ih init (fun x hx => h x (by simp [hx]))

theorem foldl_pick_last (q : Int) (l1 l2 : List LineMapSegment) (seg : LineMapSegment)
    (init : LineMapSegment) (h1 : seg.outStartLine ≤ q)
    (h2 : ∀ s ∈ l2, ¬(s.outStartLine ≤ q)) :
    (l1 ++ seg :: l2).foldl (fun acc s => if s.outStartLine ≤ q then s else acc) init = seg := by
  rw [List.foldl_append, List.foldl_cons, if_pos h1]
  exact foldl_pick_id q l2 seg h2

/-- The generated C file of the reverse-mapping example of the
specification. -/
def c9CText : String :=
  "#include <stdio.h>\n#line 10 \"/tmp/main.cm\"\nint main() \x7b\n  return does_not_exist;\n\x7d\n"

/-- C9.  Reverse line mapping obeys `#line` semantics: a
`#line n "path"` directive on generated line `k` (1-based, `k = i + 1`)
contributes a mapping segment starting at generated line `k + 1` with
original line `n`; `mapLine(q)` picks the last segment whose start is at
or before `q` and returns `(path, n + (q - (k+1)))`; on the concrete
five-line generated file, `mapLine 3 = ("/tmp/main.cm", 10)` and
`mapLine 4 = ("/tmp/main.cm", 11)`. -/
theorem c9_line_mapping :
    (∀ (ctext : String) (i : Nat) (ln : String) (n : Int) (p : String),
        (scanLines ctext)[i]? = some ln → lineDirectiveOf ln = some (n, p) →
        (⟨(i : Int) + 1 + 1, n, p⟩ : LineMapSegment) ∈ newLineMapperFromC ctext) ∧
    (∀ (pre post : List LineMapSegment) (seg : LineMapSegment) (q : Int),
        seg.outStartLine ≤ q → (∀ s ∈ post, ¬(s.outStartLine ≤ q)) → seg.origFile ≠ "" →
        mapLine (pre ++ seg :: post) q =
          (seg.origFile, seg.origStartLine + (q - seg.outStartLine))) ∧
    newLineMapperFromC c9CText = [⟨1, 1, ""⟩, ⟨3, 10, "/tmp/main.cm"⟩] ∧
    mapLine (newLineMapperFromC c9CText) 3 = ("/tmp/main.cm", 10) ∧
    mapLine (newLineMapperFromC c9CText) 4 = ("/tmp/main.cm", 11) := by
  refine ⟨?_, ?_, by decide, by decide, by decide⟩
  · intro ctext i ln n p hget hdir
    unfold newLineMapperFromC
    apply List.mem_cons_of_mem
    rw [List.mem_filterMap]
    exact ⟨(i, ln), List.mk_mem_enum_iff_getElem?.mpr hget, by simp [hdir]⟩
  · intro pre post seg q h1 h2 h3
    rcases hsegs : pre ++ seg :: post with _ | ⟨s0, rest⟩
    · exact absurd hsegs (by simp)
    · unfold mapLine
      rw [← hsegs]
      rw [hsegs]
      simp only
      rw [← hsegs, foldl_pick_last q pre post seg s0 h1 h2]
      rw [if_neg h3, if_neg (by omega)]

/-- Witness for C9: both general clauses applied at the concrete example
file. -/
theorem c9_line_mapping_witness :
    ((scanLines c9CText)[1]? = some "#line 10 \"/tmp/main.cm\"" ∧
      lineDirectiveOf "#line 10 \"/tmp/main.cm\"" = some (10, "/tmp/main.cm") ∧
      (⟨3, 10, "/tmp/main.cm"⟩ : LineMapSegment).outStartLine ≤ 4) ∧
    (⟨(1 : Int) + 1 + 1, 10, "/tmp/main.cm"⟩ : LineMapSegment) ∈ newLineMapperFromC c9CText ∧
    mapLine ([⟨1, 1, ""⟩] ++ (⟨3, 10, "/tmp/main.cm"⟩ : LineMapSegment) :: []) 4 =
      ("/tmp/main.cm", (10 : Int) + (4 - 3)) :=
  ⟨⟨by decide, by decide, by decide⟩,
    c9_line_mapping.1 c9CText 1 "#line 10 \"/tmp/main.cm\"" 10 "/tmp/main.cm"
      (by decide) (by decide),
    c9_line_mapping.2.1 [⟨1, 1, ""⟩] [] ⟨3, 10, "/tmp/main.cm"⟩ 4 (by decide)
      (by simp) (by decide)⟩

/-- `isIdentChar` from internal/lsp/module_index.go (byte classes). -/
def isIdentCharL (c : Char) : Bool :=
  (decide ('a' ≤ c) && decide (c ≤ 'z')) || (decide ('A' ≤ c) && decide (c ≤ 'Z')) ||
    (decide ('0' ≤ c) && decide (c ≤ '9')) || c = '_'

/-- `splitLinesPreserve` from module_index.go: split at every newline,
always keeping a final (possibly empty) piece, with one trailing carriage
return trimmed per line. -/
def splitLinesPreserve (s : String) : List String :=
  (goSplitCh '\n' s).map trimCRstr

/-- The scanner state of `isInStringOrComment` from
internal/lsp/symbols.go. -/
structure LexState where
  inLineComment : Bool := false
  inBlockComment : Bool := false
  inString : Bool := false
  inChar : Bool := false
  escaped : Bool := false
deriving DecidableEq, Repr

/-- The character loop of `isInStringOrComment`, advancing the state over
at most `budget` characters (two-character tokens `//`, `/*`, `*/` consume
two at once, exactly as the Go index does). -/
def lexAdvance : LexState → List Char → Nat → LexState
  | st, _, 0 => st
  | st, [], _ + 1 => st
  | st, c :: cs, b + 1 =>
    if st.inLineComment then
      if c = '\n' then lexAdvance { st with inLineComment := false } cs b
      else lexAdvance st cs b
    else if st.inBlockComment then
      if c = '*' ∧ cs.head? = some '/' then
        match b with
        | 0 => { st with inBlockComment := false }
        | b2 + 1 => lexAdvance { st with inBlockComment := false } cs.tail b2
      else lexAdvance st cs b
    else if st.inString then
      if st.escaped then lexAdvance { st with escaped := false } cs b
      else if c = '\\' then lexAdvance { st with escaped := true } cs b
      else if c = '"' then lexAdvance { st with inString := false } cs b
      else lexAdvance st cs b
    else if st.inChar then
      if st.escaped then lexAdvance { st with escaped := false } cs b
      else if c = '\\' then lexAdvance { st with escaped := true } cs b
      else if c = squote then lexAdvance { st with inChar := false } cs b
      else lexAdvance st cs b
    else if c = '/' ∧ cs.head? = some '/' then
      match b with
      | 0 => { st with inLineComment := true }
      | b2 + 1 => lexAdvance { st with inLineComment := true } cs.tail b2
    else if c = '/' ∧ cs.head? = some '*' then
      match b with
      | 0 => { st with inBlockComment := true }
      | b2 + 1 => lexAdvance { st with inBlockComment := true } cs.tail b2
    else if c = '"' then lexAdvance { st with inString := true } cs b
    else if c = squote then lexAdvance { st with inChar := true } cs b
    else lexAdvance st cs b

/-- `isInStringOrComment` from internal/lsp/symbols.go: convert the
`(line, character)` position to an absolute offset (clamping the column to
the line length) and run the state machine up to that offset. -/
def isInStringOrComment (src : String) (line0 char0 : Nat) : Bool :=
  let lines := splitLinesPreserve src
  if line0 ≥ lines.length then false
  else
    let off := (lines.take line0).foldl (fun acc l => acc + l.length + 1) 0 +
      min char0 (lines.getD line0 "").length
    let st := lexAdvance {} src.data off
    st.inLineComment || st.inBlockComment || st.inString || st.inChar

/-- One text edit produced by `findRenameEdits` (an LSP `TextEdit` whose
range lies on a single line). -/
structure RenameEdit where
  line : Nat
  startChar : Nat
  endChar : Nat
  newText : String
deriving DecidableEq, Repr

/-- The per-line scan loop of `findRenameEdits`: find the needle from
`pos` on, emit an edit when both byte-boundaries are non-identifier and
the match start is not inside a string/char/comment, and continue after
the match.  The fuel bounds the iterations; `lineLength + 1` is enough for
any non-empty needle. -/
def renameScan (text : String) (i : Nat) (line nd : List Char) (repl : String) :
    Nat → Nat → List RenameEdit
  | 0, _ => []
  | fuel + 1, pos =>
    match idxOfSub (line.drop pos) nd with
    | none => []
    | some idx =>
      let abs := pos + idx
      let beforeOK := abs == 0 || !(isIdentCharL (line.getD (abs - 1) ' '))
      let afterOK := abs + nd.length ≥ line.length || !(isIdentCharL (line.getD (abs + nd.length) ' '))
      let rest := if abs + nd.length ≥ line.length then []
        else renameScan text i line nd repl fuel (abs + nd.length)
      if beforeOK && afterOK then
        if isInStringOrComment text i abs then rest
        else ⟨i, abs, abs + nd.length, repl⟩ :: rest
      else rest

/-- `findRenameEdits` from internal/lsp/module_index.go. -/
def findRenameEdits (text oldName newName : String) (qualified : Bool) (module : String) :
    List RenameEdit :=
  let nd := if qualified then module ++ "." ++ oldName else oldName
  let repl := if qualified then module ++ "." ++ newName else newName
  (splitLinesPreserve text).enum.flatMap
    (fun iln => renameScan text iln.1 iln.2.data nd.data repl (iln.2.data.length + 1) 0)

/-- The workspace-edit collection of `rename` from module_index.go, over
in-memory file texts: unqualified edits in every file of the target
module, and — exactly when the symbol is public — qualified edits in every
file of every other module.  Files contributing no edits are omitted. -/
def renameWorkspaceEdits (targetFiles otherFiles : List (String × String))
    (oldIdent newName targetModule : String) (isPublic : Bool) :
    List (String × List RenameEdit) :=
  targetFiles.filterMap
    (fun ft =>
      let es := findRenameEdits ft.2 oldIdent newName false ""
      if es = [] then none else some (ft.1, es)) ++
  (if isPublic then
    otherFiles.filterMap
      (fun ft =>
        let es := findRenameEdits ft.2 oldIdent newName true targetModule
        if es = [] then none else some (ft.1, es))
   else [])

theorem idxOfSub_spec (hay nd : List Char) (idx : Nat) (h : idxOfSub hay nd = some idx) :
    (hay.drop idx).take nd.length = nd := by
  unfold idxOfSub at h
  have := List.find?_some h
  exact of_decide_eq_true this

theorem renameScan_sound (text : String) (i : Nat) (line nd : List Char) (repl : String)
    (fuel pos : Nat) (e : RenameEdit) (he : e ∈ renameScan text i line nd repl fuel pos) :
    e.line = i ∧ e.newText = repl ∧ e.endChar = e.startChar + nd.length ∧
    (line.drop e.startChar).take nd.length = nd ∧
    (e.startChar = 0 ∨ isIdentCharL (line.getD (e.startChar - 1) ' ') = false) ∧
    (e.startChar + nd.length ≥ line.length ∨
      isIdentCharL (line.getD (e.startChar + nd.length) ' ') = false) ∧
    isInStringOrComment text i e.startChar = false := by
  induction fuel generalizing pos with
  | zero => simp [renameScan] at he
  | succ fuel ih =>
    rw [renameScan] at he
    rcases hidx : idxOfSub (line.drop pos) nd with _ | idx
    · rw [hidx] at he
      simp at he
    · rw [hidx] at he
      simp only at he
      have hmatch : (line.drop (pos + idx)).take nd.length = nd := by
        have h0 := idxOfSub_spec (line.drop pos) nd idx hidx
        rwa [List.drop_drop] at h0
      split at he
      · next hb =>
        split at he
        · split at he
          · simp at he
          · exact ih _ he
        · next hc =>
          rcases List.mem_cons.mp he with rfl | he2
          · simp only [Bool.and_eq_true, Bool.or_eq_true, beq_iff_eq, Bool.not_eq_true',
              decide_eq_true_eq] at hb
            exact ⟨rfl, rfl, rfl, hmatch, hb.1, hb.2, by simpa using hc⟩
          · split at he2
            · simp at he2
            · exact ih _ he2
      · split at he
        · simp at he
        · exact ih _ he

theorem findRenameEdits_sound (text oldName newName : String) (qual : Bool) (moduleName : String)
    (e : RenameEdit) (he : e ∈ findRenameEdits text oldName newName qual moduleName) :
    ∃ ln, (splitLinesPreserve text)[e.line]? = some ln ∧
      e.newText = (if qual then moduleName ++ "." ++ newName else newName) ∧
      e.endChar = e.startChar + (if qual then moduleName ++ "." ++ oldName else oldName).data.length ∧
      (ln.data.drop e.startChar).take
          (if qual then moduleName ++ "." ++ oldName else oldName).data.length =
        (if qual then moduleName ++ "." ++ oldName else oldName).data ∧
      (e.startChar = 0 ∨ isIdentCharL (ln.data.getD (e.startChar - 1) ' ') = false) ∧
      (e.startChar + (if qual then moduleName ++ "." ++ oldName else oldName).data.length ≥
          ln.data.length ∨
        isIdentCharL
            (ln.data.getD
              (e.startChar + (if qual then moduleName ++ "." ++ oldName else oldName).data.length)
              ' ') =
          false) ∧
      isInStringOrComment text e.line e.startChar = false := by
  unfold findRenameEdits at he
  simp only [] at he
  rw [List.mem_flatMap] at he
  obtain ⟨⟨i, ln⟩, hmem, hscan⟩ := he
  have hline : (splitLinesPreserve text)[i]? = some ln :=
    List.mk_mem_enum_iff_getElem?.mp hmem
  obtain ⟨h1, h2, h3, h4, h5, h6, h7⟩ :=
    renameScan_sound text i ln.data
      (if qual then moduleName ++ "." ++ oldName else oldName).data
      (if qual then moduleName ++ "." ++ newName else newName)
      (ln.data.length + 1) 0 e hscan
  subst h1
  exact ⟨ln, hline, h2, h3, h4, h5, h6, h7⟩

theorem filterMap_edit_mem (files : List (String × String)) (f : String → List RenameEdit)
    (nm : String) (es : List RenameEdit) :
    ((nm, es) ∈ files.filterMap
        (fun ft => if f ft.2 = [] then none else some (ft.1, f ft.2))) ↔
      ∃ text, (nm, text) ∈ files ∧ es = f text ∧ es ≠ [] := by
  rw [List.mem_filterMap]
  constructor
  · rintro ⟨⟨nm2, text⟩, hmem, heq⟩
    by_cases hz : f text = []
    · rw [if_pos hz] at heq
      cases heq
    · rw [if_neg hz] at heq
      have h1 : nm2 = nm ∧ f text = es := by
        have := Option.some.inj heq
        exact ⟨congrArg Prod.fst this, congrArg Prod.snd this⟩
      obtain ⟨rfl, rfl⟩ := h1
      exact ⟨text, hmem, rfl, hz⟩
  · rintro ⟨text, hmem, rfl, hne⟩
    exact ⟨(nm, text), hmem, by rw [if_neg hne]⟩

/-- Target-module file of the rename example: `hello` appears as a
definition, in a line comment, at a call site, next to the distinct
identifier `hello2`, and inside a string literal. -/
def c10TargetText : String :=
  "pub func hello() int \x7b return 1; \x7d\n// hello stays\nint x = hello() + hello2();\nchar* s = \"hello\";\n"

/-- Other-module file of the rename example: `greet.hello` appears at a
call site and as a prefix of the distinct `greet.hellox`. -/
def c10OtherText : String :=
  "import \"greet\"\nint y = greet.hello() + greet.hellox();\n"

set_option maxRecDepth 1000000 in
/-- C10.  Rename edit discipline: the workspace edit contains entries for
target-module files built from `findRenameEdits` with the bare needle, and
qualified entries for other modules' files exactly when the symbol is
public; every produced edit replaces an occurrence of the needle whose two
byte-boundaries are non-identifier characters and whose start is not
inside a string, character literal or comment; and on the concrete
example texts the produced edits are exactly the standalone,
non-literal occurrences. -/
theorem c10_rename_edits :
    (∀ (tf ofs : List (String × String)) (o n tm nm : String) (pub : Bool)
        (es : List RenameEdit),
        (nm, es) ∈ renameWorkspaceEdits tf ofs o n tm pub ↔
          ((∃ text, (nm, text) ∈ tf ∧ es = findRenameEdits text o n false "" ∧ es ≠ []) ∨
            (pub = true ∧
              ∃ text, (nm, text) ∈ ofs ∧ es = findRenameEdits text o n true tm ∧ es ≠ []))) ∧
    (∀ (text o n : String) (qual : Bool) (tm : String) (e : RenameEdit),
        e ∈ findRenameEdits text o n qual tm →
        ∃ ln, (splitLinesPreserve text)[e.line]? = some ln ∧
          e.newText = (if qual then tm ++ "." ++ n else n) ∧
          e.endChar = e.startChar + (if qual then tm ++ "." ++ o else o).data.length ∧
          (ln.data.drop e.startChar).take (if qual then tm ++ "." ++ o else o).data.length =
            (if qual then tm ++ "." ++ o else o).data ∧
          (e.startChar = 0 ∨ isIdentCharL (ln.data.getD (e.startChar - 1) ' ') = false) ∧
          (e.startChar + (if qual then tm ++ "." ++ o else o).data.length ≥ ln.data.length ∨
            isIdentCharL
                (ln.data.getD (e.startChar + (if qual then tm ++ "." ++ o else o).data.length)
                  ' ') =
              false) ∧
          isInStringOrComment text e.line e.startChar = false) ∧
    findRenameEdits c10TargetText "hello" "hi" false "" =
      [⟨0, 9, 14, "hi"⟩, ⟨2, 8, 13, "hi"⟩] ∧
    findRenameEdits c10OtherText "hello" "hi" true "greet" = [⟨1, 8, 19, "greet.hi"⟩] ∧
    renameWorkspaceEdits [("greet/greet.cm", c10TargetText)] [("main.cm", c10OtherText)]
        "hello" "hi" "greet" true =
      [("greet/greet.cm", [⟨0, 9, 14, "hi"⟩, ⟨2, 8, 13, "hi"⟩]),
        ("main.cm", [⟨1, 8, 19, "greet.hi"⟩])] ∧
    renameWorkspaceEdits [("greet/greet.cm", c10TargetText)] [("main.cm", c10OtherText)]
        "hello" "hi" "greet" false =
      [("greet/greet.cm", [⟨0, 9, 14, "hi"⟩, ⟨2, 8, 13, "hi"⟩])] := by
  have ht : findRenameEdits c10TargetText "hello" "hi" false "" =
      [⟨0, 9, 14, "hi"⟩, ⟨2, 8, 13, "hi"⟩] := by
    decide
  have ho : findRenameEdits c10OtherText "hello" "hi" true "greet" =
      [⟨1, 8, 19, "greet.hi"⟩] := by
    decide
  refine ⟨?_, findRenameEdits_sound, ht, ho, ?_, ?_⟩
  · intro tf ofs o n tm nm pub es
    unfold renameWorkspaceEdits
    have h1 := filterMap_edit_mem tf (fun text => findRenameEdits text o n false "") nm es
    have h2 := filterMap_edit_mem ofs (fun text => findRenameEdits text o n true tm) nm es
    simp only [] at h1 h2 ⊢
    rw [List.mem_append]
    cases pub
    · rw [if_neg (by simp)]
      simp only [List.not_mem_nil, or_false]
      rw [h1]
      simp
    · rw [if_pos rfl]
      rw [h1, h2]
      simp
  · unfold renameWorkspaceEdits
    simp [ht, ho]
  · unfold renameWorkspaceEdits
    simp [ht]

set_option maxRecDepth 1000000 in
/-- Witness for C10: the membership clause and the soundness clause at a
concrete edit of the example. -/
theorem c10_rename_edits_witness :
    ((⟨2, 8, 13, "hi"⟩ : RenameEdit) ∈ findRenameEdits c10TargetText "hello" "hi" false "" ∧
      ("greet/greet.cm", c10TargetText) ∈ [("greet/greet.cm", c10TargetText)]) ∧
    (∃ ln, (splitLinesPreserve c10TargetText)[(⟨2, 8, 13, "hi"⟩ : RenameEdit).line]? = some ln ∧
      (⟨2, 8, 13, "hi"⟩ : RenameEdit).newText = (if false then "" ++ "." ++ "hi" else "hi") ∧
      (⟨2, 8, 13, "hi"⟩ : RenameEdit).endChar =
        (⟨2, 8, 13, "hi"⟩ : RenameEdit).startChar +
          (if false then "" ++ "." ++ "hello" else "hello").data.length ∧
      (ln.data.drop (⟨2, 8, 13, "hi"⟩ : RenameEdit).startChar).take
          (if false then "" ++ "." ++ "hello" else "hello").data.length =
        (if false then "" ++ "." ++ "hello" else "hello").data ∧
      ((⟨2, 8, 13, "hi"⟩ : RenameEdit).startChar = 0 ∨
        isIdentCharL (ln.data.getD ((⟨2, 8, 13, "hi"⟩ : RenameEdit).startChar - 1) ' ') = false) ∧
      ((⟨2, 8, 13, "hi"⟩ : RenameEdit).startChar +
            (if false then "" ++ "." ++ "hello" else "hello").data.length ≥ ln.data.length ∨
        isIdentCharL
            (ln.data.getD
              ((⟨2, 8, 13, "hi"⟩ : RenameEdit).startChar +
                (if false then "" ++ "." ++ "hello" else "hello").data.length)
              ' ') =
          false) ∧
      isInStringOrComment c10TargetText (⟨2, 8, 13, "hi"⟩ : RenameEdit).line
          (⟨2, 8, 13, "hi"⟩ : RenameEdit).startChar =
        false) :=
  ⟨⟨by decide, by decide⟩,
    c10_rename_edits.2.1 c10TargetText "hello" "hi" false "" ⟨2, 8, 13, "hi"⟩ (by decide)⟩

theorem lookup_cons_self (x k : String) (v : Int) (t : List (String × Int)) (h : x = k) :
    List.lookup x ((k, v) :: t) = some v := by
  simp [List.lookup, h]

theorem lookup_cons_ne (x k : String) (v : Int) (t : List (String × Int)) (h : ¬(x = k)) :
    List.lookup x ((k, v) :: t) = List.lookup x t := by
  have hb : (x == k) = false := by simp [h]
  simp [List.lookup, hb]

theorem lookup_map_modify (m : List (String × Int)) (k : String) (g : Int → Int) (x : String) :
    List.lookup x (m.map (fun kv => if kv.1 = k then (kv.1, g kv.2) else kv)) =
      if x = k then (List.lookup x m).map g else List.lookup x m := by
  induction m with
  | nil => simp
  | cons a t ih =>
    rcases a with ⟨ak, av⟩
    simp only [List.map_cons]
    by_cases hak : ak = k
    · rw [if_pos hak]
      by_cases hx : x = ak
      · rw [lookup_cons_self x ak (g av) _ hx, lookup_cons_self x ak av t hx,
          if_pos (hx.trans hak)]
        rfl
      · rw [lookup_cons_ne x ak (g av) _ hx, lookup_cons_ne x ak av t hx, ih]
    · rw [if_neg hak]
      by_cases hx : x = ak
      · rw [lookup_cons_self x ak av _ hx, lookup_cons_self x ak av t hx,
          if_neg (fun hxk => hak (hx ▸ hxk))]
      · rw [lookup_cons_ne x ak av _ hx, lookup_cons_ne x ak av t hx, ih]

theorem lookup_bumpDeg (m : List (String × Int)) (k x : String) :
    List.lookup x (bumpDeg m k) =
      if x = k then some ((List.lookup x m).getD 0 + 1) else List.lookup x m := by
  unfold bumpDeg
  split
  · next hp =>
    have hm := lookup_map_modify m k (fun v => v + 1) x
    simp only [] at hm
    rw [hm]
    by_cases hx : x = k
    · subst hx
      rcases ho : List.lookup x m with _ | v
      · rw [ho] at hp
        simp at hp
      · simp [ho]
    · simp [hx]
  · next hp =>
    rw [List.lookup_append]
    by_cases hx : x = k
    · subst hx
      have hn : List.lookup x m = none := by
        rcases ho : List.lookup x m with _ | v
        · rfl
        · rw [ho] at hp
          simp at hp
      simp [hn, List.lookup]
    · have hb : (x == k) = false := by simp [hx]
      simp only [hx, if_false, List.lookup, hb]
      cases List.lookup x m <;> simp

theorem lookup_decDeg (m : List (String × Int)) (k x : String) :
    List.lookup x (decDeg m k) =
      if x = k then some ((List.lookup x m).getD 0 - 1) else List.lookup x m := by
  unfold decDeg
  split
  · next hp =>
    have hm := lookup_map_modify m k (fun v => v - 1) x
    simp only [] at hm
    rw [hm]
    by_cases hx : x = k
    · subst hx
      rcases ho : List.lookup x m with _ | v
      · rw [ho] at hp
        simp at hp
      · simp [ho]
    · simp [hx]
  · next hp =>
    rw [List.lookup_append]
    by_cases hx : x = k
    · subst hx
      have hn : List.lookup x m = none := by
        rcases ho : List.lookup x m with _ | v
        · rfl
        · rw [ho] at hp
          simp at hp
      simp [hn, List.lookup]
    · have hb : (x == k) = false := by simp [hx]
      simp only [hx, if_false, List.lookup, hb]
      cases List.lookup x m <;> simp

theorem lookup_foldl_bumpDeg (imps : List String) (m : List (String × Int)) (x : String) :
    List.lookup x (imps.foldl bumpDeg m) =
      if imps.count x = 0 then List.lookup x m
      else some ((List.lookup x m).getD 0 + (imps.count x : Int)) := by
  induction imps generalizing m with
  | nil => simp
  | cons i rest ih =>
    rw [List.foldl_cons, ih, lookup_bumpDeg, List.count_cons]
    by_cases hx : x = i
    · subst hx
      rcases ho : List.lookup x m with _ | v <;> by_cases hr : rest.count x = 0 <;>
        simp [ho, hr] <;> omega
    · have hb2 : ¬(i = x) := fun h => hx h.symm
      simp [hx, hb2]

theorem lookup_degStep (m : List (String × Int)) (pm : String × List String) (x : String) :
    List.lookup x (degStep m pm) =
      if (List.lookup x m).isSome = true ∨ x = pm.1 ∨ 0 < pm.2.count x
      then some ((List.lookup x m).getD 0 + (pm.2.count x : Int)) else none := by
  unfold degStep
  rw [lookup_foldl_bumpDeg]
  by_cases hp : (List.lookup pm.1 m).isSome = true
  · rw [if_pos hp]
    by_cases hx : x = pm.1
    · have hs : (List.lookup x m).isSome = true := by rw [hx]; exact hp
      rcases ho : List.lookup x m with _ | v
      · rw [ho] at hs
        simp at hs
      · rcases Nat.eq_zero_or_pos (pm.2.count x) with hr | hr
        · simp [ho, hr, hx]
        · simp [ho, hr, hr.ne', hx]
    · rcases ho : List.lookup x m with _ | v <;>
        rcases Nat.eq_zero_or_pos (pm.2.count x) with hr | hr
      · simp [ho, hr, hx]
      · simp [ho, hr, hr.ne', hx]
      · simp [ho, hr, hx]
      · simp [ho, hr, hr.ne', hx]
  · rw [if_neg hp]
    rw [List.lookup_append]
    by_cases hx : x = pm.1
    · subst hx
      have hn : List.lookup pm.1 m = none := by
        rcases ho : List.lookup pm.1 m with _ | v
        · rfl
        · rw [ho] at hp
          simp at hp
      have h1 : List.lookup pm.1 [(pm.1, (0 : Int))] = some 0 :=
        lookup_cons_self pm.1 pm.1 0 [] rfl
      rcases Nat.eq_zero_or_pos (pm.2.count pm.1) with hr | hr
      · simp [hn, h1, hr]
      · simp [hn, h1, hr, hr.ne']
    · have h1 : List.lookup x [(pm.1, (0 : Int))] = none := by
        rw [lookup_cons_ne x pm.1 0 [] hx]
        rfl
      rcases ho : List.lookup x m with _ | v <;>
        rcases Nat.eq_zero_or_pos (pm.2.count x) with hr | hr
      · simp [ho, h1, hr, hx]
      · simp [ho, h1, hr, hr.ne', hx]
      · simp [ho, h1, hr, hx]
      · simp [ho, h1, hr, hr.ne', hx]

/-- All import occurrences of a module map, in order. -/
def allImports (ms : ModGraph) : List String := ms.flatMap (fun pm => pm.2)

theorem lookup_foldl_degStep (ms : ModGraph) (m : List (String × Int)) (x : String) :
    List.lookup x (ms.foldl degStep m) =
      if (List.lookup x m).isSome = true ∨ x ∈ ms.map Prod.fst ∨ 0 < (allImports ms).count x
      then some ((List.lookup x m).getD 0 + ((allImports ms).count x : Int)) else none := by
  induction ms generalizing m with
  | nil =>
    rcases h : List.lookup x m with _ | v <;> simp [allImports, h]
  | cons pm rest ih =>
    rw [List.foldl_cons, ih, lookup_degStep]
    have hcnt : (allImports (pm :: rest)).count x = pm.2.count x + (allImports rest).count x := by
      simp [allImports, List.count_append]
    by_cases hcond : (List.lookup x m).isSome = true ∨ x = pm.1 ∨ 0 < pm.2.count x
    · rw [if_pos hcond]
      have hout : ((some ((List.lookup x m).getD 0 + (pm.2.count x : Int))).isSome = true ∨
          x ∈ rest.map Prod.fst ∨ 0 < (allImports rest).count x) := Or.inl rfl
      rw [if_pos hout]
      have hrhs : ((List.lookup x m).isSome = true ∨ x ∈ (pm :: rest).map Prod.fst ∨
          0 < (allImports (pm :: rest)).count x) := by
        rcases hcond with h | h | h
        · exact Or.inl h
        · exact Or.inr (Or.inl (by simp [h]))
        · exact Or.inr (Or.inr (by omega))
      rw [if_pos hrhs, hcnt]
      push_cast
      simp
      omega
    · rw [if_neg hcond]
      push_neg at hcond
      obtain ⟨hA, hB, hC⟩ := hcond
      have hc1 : pm.2.count x = 0 := by omega
      have hn : List.lookup x m = none := by
        rcases ho : List.lookup x m with _ | v
        · rfl
        · rw [ho] at hA
          simp at hA
      by_cases hrest : x ∈ rest.map Prod.fst ∨ 0 < (allImports rest).count x
      · have hout : ((none : Option Int).isSome = true ∨ x ∈ rest.map Prod.fst ∨
            0 < (allImports rest).count x) := Or.inr hrest
        rw [if_pos hout]
        have hrhs : ((List.lookup x m).isSome = true ∨ x ∈ (pm :: rest).map Prod.fst ∨
            0 < (allImports (pm :: rest)).count x) := by
          rcases hrest with h | h
          · exact Or.inr (Or.inl (by simp [h]))
          · exact Or.inr (Or.inr (by omega))
        rw [if_pos hrhs, hcnt, hn]
        push_cast
        simp [hc1]
      · have hout : ¬((none : Option Int).isSome = true ∨ x ∈ rest.map Prod.fst ∨
            0 < (allImports rest).count x) := by
          simp only [Option.isSome_none, Bool.false_eq_true, false_or]
          exact hrest
        rw [if_neg hout]
        have hrhs : ¬((List.lookup x m).isSome = true ∨ x ∈ (pm :: rest).map Prod.fst ∨
            0 < (allImports (pm :: rest)).count x) := by
          push_neg at hrest
          intro hcon
          rcases hcon with h | h | h
          · rw [hn] at h
            simp at h
          · rcases (by simpa using h : x = pm.1 ∨ x ∈ rest.map Prod.fst) with h2 | h2
            · exact hB h2
            · exact hrest.1 h2
          · rw [hcnt] at h
            omega
        rw [if_neg hrhs]

theorem lookup_buildInDegree (ms : ModGraph) (x : String) :
    List.lookup x (buildInDegree ms) =
      if x ∈ ms.map Prod.fst ∨ 0 < (allImports ms).count x
      then some (((allImports ms).count x : Int)) else none := by
  have h := lookup_foldl_degStep ms [] x
  rw [show buildInDegree ms = ms.foldl degStep [] from rfl, h]
  simp only [List.lookup, Option.isSome_none, Option.getD_none, zero_add]
  by_cases hc : x ∈ ms.map Prod.fst ∨ 0 < (allImports ms).count x
  · rw [if_pos (Or.inr hc), if_pos hc]
  · have hneg : ¬(false = true ∨ (x ∈ ms.map Prod.fst ∨ 0 < (allImports ms).count x)) := by
      intro hcon
      rcases hcon with hb | ha
      · cases hb
      · exact hc ha
    rw [if_neg hneg, if_neg hc]

theorem buildInDegree_keys_nodup_aux (ms : ModGraph) :
    ∀ m : List (String × Int), (m.map Prod.fst).Nodup →
      ((ms.foldl degStep m).map Prod.fst).Nodup := by
  induction ms with
  | nil => intro m h; exact h
  | cons pm t ih => intro m h; exact ih (degStep m pm) (nodup_keys_degStep m pm h)

theorem buildInDegree_keys_nodup (ms : ModGraph) :
    ((buildInDegree ms).map Prod.fst).Nodup :=
  buildInDegree_keys_nodup_aux ms [] (by simp)

theorem lookup_mem {β : Type} {m : List (String × β)} {k : String} {v : β}
    (h : List.lookup k m = some v) : (k, v) ∈ m := by
  induction m with
  | nil => simp [List.lookup] at h
  | cons a t ih =>
    rcases a with ⟨a1, a2⟩
    by_cases hk : k = a1
    · rw [hk] at h
      simp [List.lookup] at h
      simp [hk, h]
    · have hb : (k == a1) = false := by simp [hk]
      simp [List.lookup, hb] at h
      exact List.mem_cons_of_mem _ (ih h)

theorem lookup_of_mem_nodup {β : Type} (m : List (String × β))
    (h : (m.map Prod.fst).Nodup) (kv : String × β) (hkv : kv ∈ m) :
    List.lookup kv.1 m = some kv.2 := by
  induction m with
  | nil => cases hkv
  | cons a t ih =>
    rcases List.mem_cons.mp hkv with rfl | hm
    · simp [List.lookup]
    · rw [List.map_cons, List.nodup_cons] at h
      have ha : kv.1 ≠ a.1 := by
        intro hcon
        have : a.1 ∈ t.map Prod.fst := by
          rw [← hcon]
          exact List.mem_map.mpr ⟨kv, hm, rfl⟩
        exact h.1 this
      have hb : (kv.1 == a.1) = false := by simp [ha]
      simp [List.lookup, hb]
      exact ih h.2 hm

theorem count_flatMap (l : List String) (f : String → List String) (x : String) :
    (l.flatMap f).count x = (l.map (fun a => (f a).count x)).sum := by
  induction l with
  | nil => rfl
  | cons a t ih => simp [List.flatMap_cons, List.count_append, ih]

theorem flatMap_count_eq_sum (A : List String) (f : String → List String) (x : String)
    (hA : A.Nodup) :
    (A.flatMap f).count x = A.toFinset.sum (fun a => (f a).count x) := by
  rw [count_flatMap]
  exact (List.sum_toFinset (fun a => (f a).count x) hA).symm

theorem sum_le_of_support_subset (A B : Finset String) (g : String → Nat)
    (h : ∀ a ∈ A, 0 < g a → a ∈ B) : A.sum g ≤ B.sum g := by
  have h1 : A.sum g = (A ∩ B).sum g := by
    refine (Finset.sum_subset Finset.inter_subset_left ?_).symm
    intro a haA hnot
    by_contra hg
    have hpos : 0 < g a := Nat.pos_of_ne_zero hg
    exact hnot (Finset.mem_inter.mpr ⟨haA, h a haA hpos⟩)
  rw [h1]
  exact Finset.sum_le_sum_of_subset Finset.inter_subset_right

theorem sum_eq_of_support_subsets (A B : Finset String) (g : String → Nat)
    (hAB : ∀ a ∈ A, 0 < g a → a ∈ B) (hBA : ∀ b ∈ B, 0 < g b → b ∈ A) :
    A.sum g = B.sum g :=
  le_antisymm (sum_le_of_support_subset A B g hAB) (sum_le_of_support_subset B A g hBA)

/-- Initial in-degree of a node: how many import occurrences point at it. -/
def ival (ms : ModGraph) (x : String) : Nat := (allImports ms).count x

/-- How many edges out of the already-popped nodes `P` point at `x`. -/
def decCount (ms : ModGraph) (P : List String) (x : String) : Nat :=
  (P.flatMap (graphFind ms)).count x

theorem graphFind_pos_mem_keys (ms : ModGraph) (u x : String)
    (h : 0 < (graphFind ms u).count x) : u ∈ ms.map Prod.fst := by
  by_contra hnot
  have hn : List.lookup u ms = none := (lookup_eq_none_iff u ms).mpr hnot
  unfold graphFind at h
  rw [hn] at h
  simp at h

theorem allImports_eq_flatMap_keys (ms : ModGraph) (hms : (ms.map Prod.fst).Nodup) :
    (ms.map Prod.fst).flatMap (graphFind ms) = allImports ms := by
  unfold allImports
  induction ms with
  | nil => rfl
  | cons pm t ih =>
    have hpm : graphFind (pm :: t) pm.1 = pm.2 := by
      unfold graphFind
      rcases pm with ⟨a, b⟩
      simp [List.lookup]
    rw [List.map_cons, List.nodup_cons] at hms
    have ht : (t.map Prod.fst).Nodup := hms.2
    have hhd : pm.1 ∉ t.map Prod.fst := hms.1
    have hsame : ∀ u ∈ t.map Prod.fst, graphFind (pm :: t) u = graphFind t u := by
      intro u hu
      have hne : u ≠ pm.1 := fun hcon => hhd (hcon ▸ hu)
      unfold graphFind
      rcases pm with ⟨a, b⟩
      have hb : (u == a) = false := by simpa using hne
      simp [List.lookup, hb]
    calc (( pm :: t).map Prod.fst).flatMap (graphFind (pm :: t))
        = graphFind (pm :: t) pm.1 ++ (t.map Prod.fst).flatMap (graphFind (pm :: t)) := by
          simp [List.flatMap_cons]
      _ = pm.2 ++ (t.map Prod.fst).flatMap (graphFind t) := by
          rw [hpm]
          congr 1
          exact List.flatMap_congr (fun u hu => hsame u hu)
      _ = pm.2 ++ t.flatMap (fun q => q.2) := by rw [ih ht]
      _ = (pm :: t).flatMap (fun q => q.2) := by simp [List.flatMap_cons]

theorem decCount_le_ival (ms : ModGraph) (hms : (ms.map Prod.fst).Nodup)
    (P : List String) (hP : P.Nodup) (x : String) :
    decCount ms P x ≤ ival ms x := by
  unfold decCount ival
  rw [← allImports_eq_flatMap_keys ms hms]
  rw [flatMap_count_eq_sum _ _ _ hP, flatMap_count_eq_sum _ _ _ hms]
  apply sum_le_of_support_subset
  intro a ha hg
  rw [List.mem_toFinset]
  exact graphFind_pos_mem_keys ms a x hg

theorem decCount_eq_ival (ms : ModGraph) (hms : (ms.map Prod.fst).Nodup)
    (P : List String) (hP : P.Nodup) (x : String)
    (hcover : ∀ u ∈ ms.map Prod.fst, u ∉ P → (graphFind ms u).count x = 0) :
    decCount ms P x = ival ms x := by
  unfold decCount ival
  rw [← allImports_eq_flatMap_keys ms hms]
  rw [flatMap_count_eq_sum _ _ _ hP, flatMap_count_eq_sum _ _ _ hms]
  apply sum_eq_of_support_subsets
  · intro a ha hg
    rw [List.mem_toFinset]
    exact graphFind_pos_mem_keys ms a x hg
  · intro b hb hg
    rw [List.mem_toFinset] at hb ⊢
    by_contra hnot
    have := hcover b hb hnot
    omega

theorem decCount_append (ms : ModGraph) (P Q : List String) (x : String) :
    decCount ms (P ++ Q) x = decCount ms P x + decCount ms Q x := by
  unfold decCount
  rw [List.flatMap_append, List.count_append]

theorem decCount_single (ms : ModGraph) (c : String) (x : String) :
    decCount ms [c] x = (graphFind ms c).count x := by
  simp [decCount]

theorem keys_decDeg (m : List (String × Int)) (k : String) :
    (decDeg m k).map Prod.fst =
      if (List.lookup k m).isSome then m.map Prod.fst else m.map Prod.fst ++ [k] := by
  unfold decDeg
  split
  · rw [List.map_map]
    apply List.map_congr_left
    intro kv _
    by_cases hk : kv.1 = k <;> simp [hk]
  · simp

theorem kahnStep_cons (indeg : List (String × Int)) (queue : List String)
    (nb : String) (nbs : List String) :
    kahnStep indeg queue (nb :: nbs) =
      if List.lookup nb (decDeg indeg nb) = some 0
      then kahnStep (decDeg indeg nb) (queue ++ [nb]) nbs
      else kahnStep (decDeg indeg nb) queue nbs := by
  by_cases hc : List.lookup nb (decDeg indeg nb) = some 0
  · rw [if_pos hc]
    unfold kahnStep
    rw [List.foldl_cons]
    congr 1
    show (if List.lookup nb (decDeg indeg nb) = some 0
        then (decDeg indeg nb, queue ++ [nb]) else (decDeg indeg nb, queue)) = _
    rw [if_pos hc]
  · rw [if_neg hc]
    unfold kahnStep
    rw [List.foldl_cons]
    congr 1
    show (if List.lookup nb (decDeg indeg nb) = some 0
        then (decDeg indeg nb, queue ++ [nb]) else (decDeg indeg nb, queue)) = _
    rw [if_neg hc]

theorem kahnStep_fold (K : List String) (nbs : List String) :
    ∀ (indeg : List (String × Int)) (queue : List String) (f : String → Int),
    indeg.map Prod.fst = K →
    (∀ x ∈ K, List.lookup x indeg = some (f x)) →
    (∀ nb ∈ nbs, nb ∈ K) →
    (∀ x ∈ K, (nbs.count x : Int) ≤ f x) →
    (kahnStep indeg queue nbs).1.map Prod.fst = K ∧
    (∀ x ∈ K, List.lookup x (kahnStep indeg queue nbs).1 = some (f x - (nbs.count x : Int))) ∧
    ∃ Δ : List String, (kahnStep indeg queue nbs).2 = queue ++ Δ ∧ Δ.Nodup ∧
      (∀ x, x ∈ Δ ↔ x ∈ K ∧ 0 < nbs.count x ∧ f x = (nbs.count x : Int)) := by
  induction nbs with
  | nil =>
    intro indeg queue f h1 h2 _ _
    refine ⟨h1, ?_, [], by simp [kahnStep], by simp, by simp⟩
    intro x hx
    simp [kahnStep, h2 x hx]
  | cons nb nbs2 ih =>
    intro indeg queue f h1 h2 hnbs hge
    have hnbK : nb ∈ K := hnbs nb (List.mem_cons_self nb nbs2)
    have hlook : List.lookup nb indeg = some (f nb) := h2 nb hnbK
    have hsome : (List.lookup nb indeg).isSome = true := by rw [hlook]; rfl
    have hkeys2 : (decDeg indeg nb).map Prod.fst = K := by
      rw [keys_decDeg, if_pos hsome]; exact h1
    have hlook2 : ∀ x ∈ K, List.lookup x (decDeg indeg nb) =
        some (if x = nb then f x - 1 else f x) := by
      intro x hx
      rw [lookup_decDeg]
      by_cases hxn : x = nb
      · rw [if_pos hxn, if_pos hxn, hxn, hlook]
        rfl
      · rw [if_neg hxn, if_neg hxn]
        exact h2 x hx
    have hm2nb : List.lookup nb (decDeg indeg nb) = some (f nb - 1) := by
      have h := hlook2 nb hnbK
      simpa using h
    have hgenb : ((nb :: nbs2).count nb : Int) ≤ f nb := hge nb hnbK
    have hgenb2 : (nbs2.count nb : Int) + 1 ≤ f nb := by
      rw [List.count_cons_self] at hgenb
      push_cast at hgenb
      omega
    have hnbs2 : ∀ nb2 ∈ nbs2, nb2 ∈ K := fun nb2 h => hnbs nb2 (List.mem_cons_of_mem _ h)
    have hge2 : ∀ x ∈ K, (nbs2.count x : Int) ≤ if x = nb then f x - 1 else f x := by
      intro x hx
      by_cases hxn : x = nb
      · rw [if_pos hxn]
        subst hxn
        omega
      · rw [if_neg hxn]
        have h := hge x hx
        rw [List.count_cons_of_ne hxn] at h
        exact h
    by_cases hz : f nb = 1
    · have hcond : List.lookup nb (decDeg indeg nb) = some 0 := by
        rw [hm2nb, hz]
        norm_num
      rw [kahnStep_cons, if_pos hcond]
      obtain ⟨ih1, ih2, Δ2, hq, hnd, hiff⟩ :=
        ih (decDeg indeg nb) (queue ++ [nb]) (fun x => if x = nb then f x - 1 else f x)
          hkeys2 hlook2 hnbs2 hge2
      have hc0 : nbs2.count nb = 0 := by omega
      have hnbΔ2 : nb ∉ Δ2 := by
        intro hmem
        have h := (hiff nb).mp hmem
        omega
      refine ⟨ih1, ?_, nb :: Δ2, ?_, ?_, ?_⟩
      · intro x hx
        rw [ih2 x hx]
        by_cases hxn : x = nb
        · subst hxn
          rw [if_pos rfl, List.count_cons_self]
          congr 1
          push_cast
          ring
        · rw [if_neg hxn, List.count_cons_of_ne hxn]
      · rw [hq]
        simp
      · exact List.nodup_cons.mpr ⟨hnbΔ2, hnd⟩
      · intro x
        constructor
        · intro hmem
          rcases List.mem_cons.mp hmem with rfl | hmem2
          · refine ⟨hnbK, by rw [List.count_cons_self]; omega, ?_⟩
            rw [List.count_cons_self, hc0, hz]
            norm_num
          · have h := (hiff x).mp hmem2
            have hxn : x ≠ nb := by
              intro hcon
              subst hcon
              exact hnbΔ2 hmem2
            rw [if_neg hxn] at h
            exact ⟨h.1, by rw [List.count_cons_of_ne hxn]; exact h.2.1,
              by rw [List.count_cons_of_ne hxn]; exact h.2.2⟩
        · rintro ⟨hxK, hpos, heq⟩
          by_cases hxn : x = nb
          · subst hxn
            exact List.mem_cons_self x Δ2
          · apply List.mem_cons_of_mem
            rw [List.count_cons_of_ne hxn] at hpos heq
            exact (hiff x).mpr ⟨hxK, hpos, by rw [if_neg hxn]; exact heq⟩
    · have hcond : ¬(List.lookup nb (decDeg indeg nb) = some 0) := by
        rw [hm2nb]
        intro hcon
        have h := Option.some.inj hcon
        omega
      rw [kahnStep_cons, if_neg hcond]
      obtain ⟨ih1, ih2, Δ2, hq, hnd, hiff⟩ :=
        ih (decDeg indeg nb) queue (fun x => if x = nb then f x - 1 else f x)
          hkeys2 hlook2 hnbs2 hge2
      refine ⟨ih1, ?_, Δ2, hq, hnd, ?_⟩
      · intro x hx
        rw [ih2 x hx]
        by_cases hxn : x = nb
        · subst hxn
          rw [if_pos rfl, List.count_cons_self]
          congr 1
          push_cast
          ring
        · rw [if_neg hxn, List.count_cons_of_ne hxn]
      · intro x
        rw [hiff x]
        by_cases hxn : x = nb
        · subst hxn
          rw [if_pos rfl, List.count_cons_self]
          constructor
          · rintro ⟨hxK, hpos, heq⟩
            exact ⟨hxK, by omega, by push_cast; omega⟩
          · rintro ⟨hxK, _, heq⟩
            push_cast at heq
            have hc2 : 0 < nbs2.count x := by omega
            exact ⟨hxK, hc2, by omega⟩
        · rw [if_neg hxn, List.count_cons_of_ne hxn]

theorem graphFind_eq_of_lookup (ms : ModGraph) (u : String) (imps : List String)
    (h : List.lookup u ms = some imps) : graphFind ms u = imps := by
  unfold graphFind
  rw [h]

theorem graphFind_eq_nil_of_none (ms : ModGraph) (u : String)
    (h : List.lookup u ms = none) : graphFind ms u = [] := by
  unfold graphFind
  rw [h]

theorem mem_graphFind_K (ms : ModGraph) (u x : String) (hx : x ∈ graphFind ms u) :
    x ∈ (buildInDegree ms).map Prod.fst := by
  rcases hlu : List.lookup u ms with _ | imps
  · rw [graphFind_eq_nil_of_none ms u hlu] at hx
    cases hx
  · rw [graphFind_eq_of_lookup ms u imps hlu] at hx
    exact foldl_degStep_mem_import ms [] (u, imps) x (lookup_mem hlu) hx

theorem nodup_subset_length (A B : List String) (hA : A.Nodup) (hB : B.Nodup)
    (hsub : ∀ x ∈ A, x ∈ B) : A.length ≤ B.length := by
  rw [← List.toFinset_card_of_nodup hA, ← List.toFinset_card_of_nodup hB]
  apply Finset.card_le_card
  intro x hx
  rw [List.mem_toFinset] at hx ⊢
  exact hsub x hx

theorem kahn_final (ms : ModGraph) (hms : (ms.map Prod.fst).Nodup)
    (r : String → Nat) (hr : ∀ pm ∈ ms, ∀ v ∈ pm.2, r v < r pm.1)
    (P : List String) (hPnd : P.Nodup)
    (hmem : ∀ x ∈ (buildInDegree ms).map Prod.fst,
        (x ∈ P ↔ decCount ms P x = ival ms x)) :
    ∀ x ∈ (buildInDegree ms).map Prod.fst, x ∈ P := by
  by_contra hnot
  push_neg at hnot
  obtain ⟨x0, hx0K, hx0P⟩ := hnot
  set U := ((buildInDegree ms).map Prod.fst).filter (fun y => decide (y ∉ P)) with hU
  have hx0U : x0 ∈ U := by
    rw [hU, List.mem_filter]
    exact ⟨hx0K, by simp [hx0P]⟩
  obtain ⟨xm, hxmU, hxmMax⟩ :=
    Finset.exists_max_image U.toFinset r ⟨x0, List.mem_toFinset.mpr hx0U⟩
  rw [List.mem_toFinset] at hxmU
  have hxmU2 := hxmU
  rw [hU, List.mem_filter] at hxmU2
  have hxmK : xm ∈ (buildInDegree ms).map Prod.fst := hxmU2.1
  have hxmP : xm ∉ P := by simpa using hxmU2.2
  have hcover : ∀ u ∈ ms.map Prod.fst, u ∉ P → (graphFind ms u).count xm = 0 := by
    intro u huK huP
    by_contra hcnt
    have hpos : 0 < (graphFind ms u).count xm := Nat.pos_of_ne_zero hcnt
    have hxm_in : xm ∈ graphFind ms u := List.count_pos_iff.mp hpos
    obtain ⟨imps, hlu⟩ := Option.isSome_iff_exists.mp ((lookup_isSome_iff u ms).mpr huK)
    have hgf : graphFind ms u = imps := graphFind_eq_of_lookup ms u imps hlu
    have hpm : (u, imps) ∈ ms := lookup_mem hlu
    have hedge : r xm < r u := hr (u, imps) hpm xm (by rw [hgf] at hxm_in; exact hxm_in)
    have huKK : u ∈ (buildInDegree ms).map Prod.fst :=
      foldl_degStep_mem_module ms [] (u, imps) hpm
    have huU : u ∈ U := by
      rw [hU, List.mem_filter]
      exact ⟨huKK, by simp [huP]⟩
    have hle := hxmMax u (List.mem_toFinset.mpr huU)
    omega
  have heq : decCount ms P xm = ival ms xm :=
    decCount_eq_ival ms hms P hPnd xm hcover
  exact hxmP ((hmem xm hxmK).mpr heq)

theorem kahnLoop_inv (ms : ModGraph) (hms : (ms.map Prod.fst).Nodup)
    (r : String → Nat) (hr : ∀ pm ∈ ms, ∀ v ∈ pm.2, r v < r pm.1) :
    ∀ (fuel : Nat) (queue P : List String) (indeg : List (String × Int)),
    indeg.map Prod.fst = (buildInDegree ms).map Prod.fst →
    (∀ x ∈ (buildInDegree ms).map Prod.fst,
        List.lookup x indeg = some ((ival ms x : Int) - (decCount ms P x : Int))) →
    (P ++ queue).Nodup →
    (∀ x ∈ P ++ queue, x ∈ (buildInDegree ms).map Prod.fst) →
    (∀ x ∈ (buildInDegree ms).map Prod.fst,
        (x ∈ P ++ queue ↔ decCount ms P x = ival ms x)) →
    ((buildInDegree ms).map Prod.fst).length + 1 ≤ fuel + P.length →
    kahnLoop ms fuel queue indeg P.length = (buildInDegree ms).length := by
  intro fuel
  induction fuel with
  | zero =>
    intro queue P indeg h1 h2 h3 h4 h5 hfuel
    exfalso
    have hPnd : P.Nodup := h3.sublist (List.sublist_append_left _ _)
    have hple : P.length ≤ ((buildInDegree ms).map Prod.fst).length :=
      nodup_subset_length P _ hPnd (buildInDegree_keys_nodup ms)
        (fun x hx => h4 x (List.mem_append.mpr (Or.inl hx)))
    omega
  | succ f ihf =>
    intro queue P indeg h1 h2 h3 h4 h5 hfuel
    cases queue with
    | nil =>
      show P.length = (buildInDegree ms).length
      have hPnd : P.Nodup := by simpa using h3
      have hsub1 : ∀ x ∈ P, x ∈ (buildInDegree ms).map Prod.fst :=
        fun x hx => h4 x (by simpa using hx)
      have hmem : ∀ x ∈ (buildInDegree ms).map Prod.fst,
          (x ∈ P ↔ decCount ms P x = ival ms x) := by
        intro x hx
        have h := h5 x hx
        simpa using h
      have hsub2 : ∀ x ∈ (buildInDegree ms).map Prod.fst, x ∈ P :=
        kahn_final ms hms r hr P hPnd hmem
      have hle1 := nodup_subset_length P _ hPnd (buildInDegree_keys_nodup ms) hsub1
      have hle2 := nodup_subset_length _ P (buildInDegree_keys_nodup ms) hPnd hsub2
      have hlen : ((buildInDegree ms).map Prod.fst).length = (buildInDegree ms).length :=
        List.length_map _ _
      omega
    | cons c Q =>
      have h3c := List.nodup_append.mp h3
      have hcE : c ∈ P ++ c :: Q := List.mem_append.mpr (Or.inr (List.mem_cons_self c Q))
      have hcK : c ∈ (buildInDegree ms).map Prod.fst := h4 c hcE
      have hcP : c ∉ P := fun hcon => h3c.2.2 hcon (List.mem_cons_self c Q)
      have hPc_nd : (P ++ [c]).Nodup := by
        refine List.nodup_append.mpr ⟨h3c.1, by simp, ?_⟩
        intro a ha hac
        have hea : a = c := by simpa using hac
        subst hea
        exact hcP ha
      set nbs := graphFind ms c with hnbs_def
      have hnbsK : ∀ nb ∈ nbs, nb ∈ (buildInDegree ms).map Prod.fst :=
        fun nb h => mem_graphFind_K ms c nb h
      have hdec_app : ∀ x, decCount ms (P ++ [c]) x = decCount ms P x + nbs.count x := by
        intro x
        rw [decCount_append, decCount_single]
      have hge : ∀ x ∈ (buildInDegree ms).map Prod.fst,
          (nbs.count x : Int) ≤ (ival ms x : Int) - (decCount ms P x : Int) := by
        intro x _
        have h := decCount_le_ival ms hms (P ++ [c]) hPc_nd x
        rw [hdec_app x] at h
        omega
      obtain ⟨hk1, hk2, Δ, hΔq, hΔnd, hΔiff⟩ :=
        kahnStep_fold ((buildInDegree ms).map Prod.fst) nbs indeg Q
          (fun x => (ival ms x : Int) - (decCount ms P x : Int)) h1 h2 hnbsK hge
      have hΔE : ∀ x ∈ Δ, x ∉ P ++ c :: Q := by
        intro x hxΔ hxE
        have h := (hΔiff x).mp hxΔ
        have hE := (h5 x h.1).mp hxE
        have hf := h.2.2
        simp only [] at hf
        omega
      show kahnLoop ms f (kahnStep indeg Q nbs).2 (kahnStep indeg Q nbs).1 (P.length + 1) =
        (buildInDegree ms).length
      have hlen_c : (P ++ [c]).length = P.length + 1 := by simp
      rw [← hlen_c, hΔq]
      apply ihf (Q ++ Δ) (P ++ [c]) (kahnStep indeg Q nbs).1
      · exact hk1
      · intro x hx
        rw [hk2 x hx]
        congr 1
        rw [hdec_app x]
        push_cast
        ring
      · rw [show (P ++ [c]) ++ (Q ++ Δ) = (P ++ c :: Q) ++ Δ from by simp,
          List.nodup_append]
        refine ⟨h3, hΔnd, ?_⟩
        intro a haE haΔ
        exact hΔE a haΔ haE
      · intro x hx
        rw [show (P ++ [c]) ++ (Q ++ Δ) = (P ++ c :: Q) ++ Δ from by simp] at hx
        rcases List.mem_append.mp hx with hx2 | hx2
        · exact h4 x hx2
        · exact ((hΔiff x).mp hx2).1
      · intro x hx
        rw [show (P ++ [c]) ++ (Q ++ Δ) = (P ++ c :: Q) ++ Δ from by simp]
        rw [hdec_app x]
        constructor
        · intro hmem
          rcases List.mem_append.mp hmem with hmem2 | hmem2
          · have hE := (h5 x hx).mp hmem2
            have hle := decCount_le_ival ms hms (P ++ [c]) hPc_nd x
            rw [hdec_app x] at hle
            omega
          · have h := (hΔiff x).mp hmem2
            have hf := h.2.2
            simp only [] at hf
            omega
        · intro heq
          by_cases hc0 : nbs.count x = 0
          · have hE : x ∈ P ++ c :: Q := (h5 x hx).mpr (by omega)
            exact List.mem_append.mpr (Or.inl hE)
          · have hpos : 0 < nbs.count x := Nat.pos_of_ne_zero hc0
            have hΔm : x ∈ Δ := (hΔiff x).mpr ⟨hx, hpos, by omega⟩
            exact List.mem_append.mpr (Or.inr hΔm)
      · have hl : ((P ++ [c]) : List String).length = P.length + 1 := by simp
        rw [hl]
        omega

theorem lookup_buildInDegree_mem (ms : ModGraph) (x : String)
    (hx : x ∈ (buildInDegree ms).map Prod.fst) :
    List.lookup x (buildInDegree ms) = some ((ival ms x : Int)) := by
  have hs := (lookup_isSome_iff x (buildInDegree ms)).mpr hx
  rw [lookup_buildInDegree] at hs ⊢
  by_cases hc : x ∈ ms.map Prod.fst ∨ 0 < (allImports ms).count x
  · rw [if_pos hc]
    rfl
  · rw [if_neg hc] at hs
    simp at hs

theorem q0_eq (m : List (String × Int)) :
    m.filterMap (fun kv => if kv.2 = 0 then some kv.1 else none) =
      (m.filter (fun kv => kv.2 == 0)).map Prod.fst := by
  induction m with
  | nil => rfl
  | cons a t ih =>
    by_cases h : a.2 = 0
    · simp [List.filterMap_cons, List.filter_cons, h, ih]
    · simp [List.filterMap_cons, List.filter_cons, h, ih]

theorem mem_q0_iff (ms : ModGraph) (x : String) :
    x ∈ (buildInDegree ms).filterMap (fun kv => if kv.2 = 0 then some kv.1 else none) ↔
      x ∈ (buildInDegree ms).map Prod.fst ∧ ival ms x = 0 := by
  rw [q0_eq, List.mem_map]
  constructor
  · rintro ⟨kv, hkv, rfl⟩
    rw [List.mem_filter] at hkv
    have hv : kv.2 = 0 := by simpa using hkv.2
    have hl : List.lookup kv.1 (buildInDegree ms) = some kv.2 :=
      lookup_of_mem_nodup _ (buildInDegree_keys_nodup ms) kv hkv.1
    have hk : kv.1 ∈ (buildInDegree ms).map Prod.fst :=
      List.mem_map.mpr ⟨kv, hkv.1, rfl⟩
    have hli := lookup_buildInDegree_mem ms kv.1 hk
    rw [hl] at hli
    have hq := Option.some.inj hli
    rw [hv] at hq
    refine ⟨hk, ?_⟩
    exact_mod_cast hq.symm
  · rintro ⟨hk, hiv⟩
    have hli := lookup_buildInDegree_mem ms x hk
    rw [hiv] at hli
    have hmem : (x, (0 : Int)) ∈ buildInDegree ms := lookup_mem (by simpa using hli)
    exact ⟨(x, 0), List.mem_filter.mpr ⟨hmem, by simp⟩, rfl⟩

theorem q0_nodup (ms : ModGraph) :
    ((buildInDegree ms).filterMap (fun kv => if kv.2 = 0 then some kv.1 else none)).Nodup := by
  rw [q0_eq]
  exact (buildInDegree_keys_nodup ms).sublist ((List.filter_sublist _).map Prod.fst)

/-- Kahn completeness: on an acyclic module graph (witnessed by a rank
function that strictly decreases along import edges) the queue loop of
`detectCycles` processes every node of the in-degree map. -/
theorem kahn_processes_all (ms : ModGraph) (hms : (ms.map Prod.fst).Nodup)
    (r : String → Nat) (hr : ∀ pm ∈ ms, ∀ v ∈ pm.2, r v < r pm.1) :
    kahnProcessedCount ms = (buildInDegree ms).length := by
  have h2 : ∀ x ∈ (buildInDegree ms).map Prod.fst,
      List.lookup x (buildInDegree ms) =
        some ((ival ms x : Int) - (decCount ms [] x : Int)) := by
    intro x hx
    rw [lookup_buildInDegree_mem ms x hx]
    simp [decCount]
  have h3 : (([] : List String) ++
      (buildInDegree ms).filterMap (fun kv => if kv.2 = 0 then some kv.1 else none)).Nodup :=
    q0_nodup ms
  have h4 : ∀ x ∈ ([] : List String) ++
      (buildInDegree ms).filterMap (fun kv => if kv.2 = 0 then some kv.1 else none),
      x ∈ (buildInDegree ms).map Prod.fst :=
    fun x hx => ((mem_q0_iff ms x).mp (by simpa using hx)).1
  have h5 : ∀ x ∈ (buildInDegree ms).map Prod.fst,
      (x ∈ ([] : List String) ++
        (buildInDegree ms).filterMap (fun kv => if kv.2 = 0 then some kv.1 else none) ↔
        decCount ms [] x = ival ms x) := by
    intro x hx
    have hd : decCount ms [] x = 0 := by simp [decCount]
    rw [hd]
    constructor
    · intro hm
      exact (((mem_q0_iff ms x).mp (by simpa using hm)).2).symm
    · intro he
      exact List.mem_append.mpr (Or.inr ((mem_q0_iff ms x).mpr ⟨hx, he.symm⟩))
  have hfuel : ((buildInDegree ms).map Prod.fst).length + 1 ≤
      ((buildInDegree ms).length + 1) + ([] : List String).length := by
    rw [List.length_map]
    simp
  exact kahnLoop_inv ms hms r hr ((buildInDegree ms).length + 1)
    ((buildInDegree ms).filterMap (fun kv => if kv.2 = 0 then some kv.1 else none)) []
    (buildInDegree ms) rfl h2 h3 h4 h5 hfuel

/-- C4.  On an acyclic project (witnessed by a rank function that strictly
decreases along import edges), a dangling import — one listed by some
module but absent from the module map — forces the
`circular dependency detected among modules` error: the dangling name is
an extra node of the in-degree map, the topological sort of an acyclic
graph processes every node of that map, so the processed count exceeds
the module count. -/
theorem c4_dangling_import (ms : ModGraph)
    (hnodup : (ms.map Prod.fst).Nodup)
    (hdangling : ∃ pm ∈ ms, ∃ i ∈ pm.2, List.lookup i ms = none)
    (hacyclic : ∃ r : String → Nat, ∀ pm ∈ ms, ∀ v ∈ pm.2, r v < r pm.1) :
    detectCycles ms = Except.error "circular dependency detected among modules" := by
  obtain ⟨r, hr⟩ := hacyclic
  have hall : kahnProcessedCount ms = (buildInDegree ms).length :=
    kahn_processes_all ms hnodup r hr
  obtain ⟨pm, hpm, i, hi, hnone⟩ := hdangling
  have hiK : i ∉ ms.map Prod.fst := (lookup_eq_none_iff i ms).mp hnone
  have hsub : ∀ x ∈ ms.map Prod.fst ++ [i], x ∈ (buildInDegree ms).map Prod.fst := by
    intro x hx
    rcases List.mem_append.mp hx with hx | hx
    · obtain ⟨pm', hpm', rfl⟩ := List.mem_map.mp hx
      exact foldl_degStep_mem_module ms [] pm' hpm'
    · have hx' : x = i := by simpa using hx
      subst hx'
      exact foldl_degStep_mem_import ms [] pm x hpm hi
  have hnd : (ms.map Prod.fst ++ [i]).Nodup := by
    simp [List.nodup_append, hnodup, hiK]
  have hlen : ms.length + 1 ≤ ((buildInDegree ms).map Prod.fst).length := by
    have h1 : (ms.map Prod.fst ++ [i]).toFinset.card = ms.length + 1 := by
      rw [List.toFinset_card_of_nodup hnd]
      simp
    have h2 : (ms.map Prod.fst ++ [i]).toFinset ⊆ ((buildInDegree ms).map Prod.fst).toFinset := by
      intro x hx
      rw [List.mem_toFinset] at *
      exact hsub x (by simpa using hx)
    calc ms.length + 1 = (ms.map Prod.fst ++ [i]).toFinset.card := h1.symm
      _ ≤ ((buildInDegree ms).map Prod.fst).toFinset.card := Finset.card_le_card h2
      _ ≤ ((buildInDegree ms).map Prod.fst).length := List.toFinset_card_le _
  have hlt : ms.length < (buildInDegree ms).length := by
    have := List.length_map (buildInDegree ms) Prod.fst
    omega
  unfold detectCycles
  rw [if_pos (by omega)]

/-- Witness for C4: the two-module project where `a` imports `b` and the
dangling `zzz`; the graph is acyclic with rank 1 for `a` and 0 elsewhere. -/
theorem c4_dangling_import_witness :
    (([("a", ["b", "zzz"]), ("b", ([] : List String))].map Prod.fst).Nodup ∧
      (∃ pm ∈ [("a", ["b", "zzz"]), ("b", ([] : List String))], ∃ i ∈ pm.2,
        List.lookup i [("a", ["b", "zzz"]), ("b", ([] : List String))] = none) ∧
      (∃ r : String → Nat, ∀ pm ∈ [("a", ["b", "zzz"]), ("b", ([] : List String))],
        ∀ v ∈ pm.2, r v < r pm.1)) ∧
    detectCycles [("a", ["b", "zzz"]), ("b", ([] : List String))] =
      Except.error "circular dependency detected among modules" :=
  ⟨⟨by decide, by decide, ⟨fun x => if x = "a" then 1 else 0, by decide⟩⟩,
    c4_dangling_import _ (by decide) (by decide)
      ⟨fun x => if x = "a" then 1 else 0, by decide⟩⟩

end CMinus